import Mathlib

/-!
# Verification of the `simple_arithmetic` interpreter

Shallow embedding of the `simple_arithmetic` Python package: scanner
(`scanner.py`), recursive-descent parser (`parser.py`), AST and formatter
(`ast.py`), evaluator (`evaluator.py`) and the pipeline entry point
(`repl.py`, method `SimpleArithmetic.eval`).

Python strings are modelled as `List Char` (a Python `str` is a sequence of
code points).  Python exceptions are modelled by the `PyErr` type and
fallible code returns `Except PyErr _`.  The `while` loops of the scanner
and the parser are embedded as structural recursion on a fuel argument;
each loop strictly advances its cursor on every iteration, so a fuel of
`length + 1` (supplied at each call site, and proven sufficient by the
lemmas below) makes the embedding total and kernel-computable.
-/

namespace SimpleArithmetic

/-! ## token.py -/

/-- `TokenType` enumeration from `token.py`. -/
inductive TokenType
  | PLUS
  | MINUS
  | MUL
  | NUM
deriving DecidableEq, Repr

/-- The `.value` attribute of each `TokenType` enum member. -/
def TokenType.value : TokenType → String
  | .PLUS => "PLUS"
  | .MINUS => "MINUS"
  | .MUL => "MUL"
  | .NUM => "NUMBER"

/-- Python `str()` of a `TokenType` enum member (used in the evaluator's
error message). -/
def TokenType.pyStr : TokenType → String
  | .PLUS => "TokenType.PLUS"
  | .MINUS => "TokenType.MINUS"
  | .MUL => "TokenType.MUL"
  | .NUM => "TokenType.NUM"

/-- `Token` named tuple from `token.py`: a kind and the matched lexeme. -/
structure Token where
  type : TokenType
  lexeme : String
deriving DecidableEq, Repr

/-! ## exceptions.py and Python built-in exceptions -/

/-- The exceptions the program can raise.  `UnexpectedInputError`,
`ParseError` and `EvaluationError` are the classes of `exceptions.py`
(`UnexpectedInputError` stores the offending lexeme it was constructed
with).  `ValueError` models the plain built-in `ValueError` that `int()`
raises, and `IndexError` models the built-in raised by out-of-range
sequence indexing. -/
inductive PyErr
  | UnexpectedInputError (message : String)
  | ParseError (message : String)
  | EvaluationError (message : String)
  | ValueError
  | IndexError
deriving DecidableEq, Repr

/-! ## ast.py -/

/-- AST nodes from `ast.py`: `BinOp` and `Literal`.  The visitor
double-dispatch of the Python code is realised by pattern matching on this
closed sum type. -/
inductive Node
  | BinOp (left : Node) (operator : TokenType) (right : Node)
  | Literal (value : Token)
deriving DecidableEq, Repr

/-- The `Formatter` visitor of `ast.py`: renders a `BinOp` as
`"({operator.value} {left} {right})"` and a `Literal` as its lexeme. -/
def format : Node → String
  | .BinOp left operator right =>
      "(" ++ operator.value ++ " " ++ format left ++ " " ++ format right ++ ")"
  | .Literal value => value.lexeme

/-! ## Python built-in character predicates

`str.isnumeric` and `str.isspace` consult the Unicode character database.
We model them on the character repertoire this development uses: ASCII
digits plus a few representative non-ASCII numeric characters (vulgar
fractions and superscripts, which satisfy `isnumeric()` but are rejected
by `int()`), and the common whitespace characters. -/

/-- Model of Python `str.isnumeric()` on a single character. -/
def pyIsNumeric (c : Char) : Bool :=
  c.isDigit || c = '½' || c = '¼' || c = '¾' || c = '²' || c = '³'

/-- Model of Python `str.isspace()` on a single character. -/
def pyIsSpace (c : Char) : Bool :=
  c = ' ' || c = '\t' || c = '\n' || c = '\r' || c = '\x0b' || c = '\x0c'

/-- Model of the Python built-in `int()` applied to a token lexeme: a
non-empty string of ASCII decimal digits converts to its base-10 value,
anything else (in the character repertoire the scanner can emit) raises a
plain `ValueError`. -/
def digitsVal (l : List Char) : Nat :=
  l.foldl (fun a c => 10 * a + (c.toNat - 48)) 0

def pyInt (s : String) : Except PyErr Int :=
  if !s.data.isEmpty && s.data.all Char.isDigit then
    .ok (digitsVal s.data : Nat)
  else
    .error .ValueError

/-! ## scanner.py -/

/-- `Scanner.__scan_operator`: builds the token for a single operator
character.  (In the Python source the argument is typed as one of the
three operator literals; the function is only ever called on those.) -/
def scan_operator (lexeme : Char) : Token :=
  let type :=
    if lexeme = '+' then TokenType.PLUS
    else if lexeme = '-' then TokenType.MINUS
    else TokenType.MUL
  ⟨type, String.mk [lexeme]⟩

/-- The `while current < len(source) and source[current].isnumeric()`
loop of `Scanner.__scan_number`, as fuel recursion on the cursor. -/
def numRunEnd (source : List Char) : Nat → Nat → Nat
  | 0, current => current
  | fuel + 1, current =>
    if current < source.length ∧ pyIsNumeric (source.getD current ' ') then
      numRunEnd source fuel (current + 1)
    else current

/-- `Scanner.__scan_number`: consume the maximal numeric run starting at
`start` and return the new cursor together with the `NUM` token whose
lexeme is the slice `source[start:current]`. -/
def scan_number (start : Nat) (source : List Char) : Nat × Token :=
  let current := numRunEnd source (source.length + 1) start
  (current, ⟨TokenType.NUM, String.mk ((source.drop start).take (current - start))⟩)

/-- The scanning loop of `Scanner.scan`, as fuel recursion on the cursor.
Each branch mirrors one `case` of the Python `match` statement, in
order. -/
def scanAux (source : List Char) : Nat → Nat → Except PyErr (List Token)
  | 0, _ => .ok []
  | fuel + 1, current =>
    if h : current < source.length then
      let lexeme := source.get ⟨current, h⟩
      if lexeme = '+' ∨ lexeme = '-' ∨ lexeme = '*' then
        (scanAux source fuel (current + 1)).map (fun ts => scan_operator lexeme :: ts)
      else if pyIsNumeric lexeme then
        let r := scan_number current source
        (scanAux source fuel r.1).map (fun ts => r.2 :: ts)
      else if pyIsSpace lexeme then
        scanAux source fuel (current + 1)
      else
        .error (.UnexpectedInputError (String.mk [lexeme]))
    else .ok []

/-- `Scanner.scan`. -/
def scan (source : String) : Except PyErr (List Token) :=
  scanAux source.data (source.data.length + 1) 0

/-! ## parser.py -/

/-- Python sequence indexing `tokens[i]` with an `int` index: negative
indices wrap around once; anything still out of range raises
`IndexError`. -/
def pyGet (tokens : List Token) (i : Int) : Except PyErr Token :=
  let j : Int := if i < 0 then i + tokens.length else i
  match tokens[j.toNat]? with
  | some t => if 0 ≤ j then .ok t else .error .IndexError
  | none => .error .IndexError

/-- `Parser.__is_last`: `current == len(tokens) - 1` over Python ints
(so it is `False` on an empty token sequence, where `len - 1 == -1`). -/
def is_last (tokens : List Token) (current : Nat) : Bool :=
  (current : Int) == (tokens.length : Int) - 1

/-- `Parser.__peek`. -/
def peek (tokens : List Token) (current : Nat) : Except PyErr Token :=
  pyGet tokens current

/-- `Parser.__previous`. -/
def previous (tokens : List Token) (current : Nat) : Except PyErr Token :=
  pyGet tokens ((current : Int) - 1)

/-- `Parser.__expected`. -/
def expected (tokens : List Token) (current : Nat) (tt : TokenType) :
    Except PyErr Bool :=
  if is_last tokens current then .ok false
  else
    match peek tokens current with
    | .error e => .error e
    | .ok t => .ok (t.type == tt)

/-- `Parser.__advance`: increments the cursor unless it sits on the last
token. -/
def advance (tokens : List Token) (current : Nat) : Nat :=
  if is_last tokens current then current else current + 1

/-- `Parser.__match(*token_types)`: try each candidate type in order;
on the first hit advance the cursor and return `true`. -/
def matchTok (tokens : List Token) (current : Nat) :
    List TokenType → Except PyErr (Bool × Nat)
  | [] => .ok (false, current)
  | tt :: tts =>
    match expected tokens current tt with
    | .error e => .error e
    | .ok b =>
      if b then .ok (true, advance tokens current)
      else matchTok tokens current tts

/-- `Parser.__literal`: requires the current token (read by direct,
unguarded indexing, exactly as in the source) to be a `NUM`. -/
def literal (tokens : List Token) (current : Nat) : Except PyErr (Node × Nat) :=
  match pyGet tokens current with
  | .error e => .error e
  | .ok t =>
    if t.type = TokenType.NUM then
      match peek tokens current with
      | .error e => .error e
      | .ok current_token => .ok (Node.Literal current_token, advance tokens current)
    else .error (.ParseError "Wrong syntax")

/-- The `while self.__match(MUL)` loop of `Parser.__factor`. -/
def factorLoop (tokens : List Token) : Nat → Node → Nat → Except PyErr (Node × Nat)
  | 0, factor, current => .ok (factor, current)
  | fuel + 1, factor, current =>
    match matchTok tokens current [TokenType.MUL] with
    | .error e => .error e
    | .ok (false, current') => .ok (factor, current')
    | .ok (true, current') =>
      match previous tokens current' with
      | .error e => .error e
      | .ok opTok =>
        match literal tokens current' with
        | .error e => .error e
        | .ok (right, current'') =>
          factorLoop tokens fuel (Node.BinOp factor opTok.type right) current''

/-- `Parser.__factor`. -/
def factor (tokens : List Token) (current : Nat) : Except PyErr (Node × Nat) :=
  match literal tokens current with
  | .error e => .error e
  | .ok (f, current') => factorLoop tokens (tokens.length + 1) f current'

/-- The `while self.__match(PLUS, MINUS)` loop of `Parser.__term`. -/
def termLoop (tokens : List Token) : Nat → Node → Nat → Except PyErr (Node × Nat)
  | 0, term, current => .ok (term, current)
  | fuel + 1, term, current =>
    match matchTok tokens current [TokenType.PLUS, TokenType.MINUS] with
    | .error e => .error e
    | .ok (false, current') => .ok (term, current')
    | .ok (true, current') =>
      match previous tokens current' with
      | .error e => .error e
      | .ok opTok =>
        match factor tokens current' with
        | .error e => .error e
        | .ok (right, current'') =>
          termLoop tokens fuel (Node.BinOp term opTok.type right) current''

/-- `Parser.__term`. -/
def term (tokens : List Token) (current : Nat) : Except PyErr (Node × Nat) :=
  match factor tokens current with
  | .error e => .error e
  | .ok (t, current') => termLoop tokens (tokens.length + 1) t current'

/-- `Parser.parse`: reset the cursor to `0` and parse one term (trailing
tokens, if any, are left unconsumed). -/
def parse (tokens : List Token) : Except PyErr Node :=
  (term tokens 0).map Prod.fst

/-! ## evaluator.py -/

/-- The `Evaluator` visitor: `visit_Literal` converts the lexeme with
`int()`; `visit_BinOp` evaluates left then right and combines them
according to the operator, raising `EvaluationError` on an operator
outside `{PLUS, MINUS, MUL}`. -/
def evaluate : Node → Except PyErr Int
  | .Literal value => pyInt value.lexeme
  | .BinOp l operator r =>
    match evaluate l with
    | .error e => .error e
    | .ok left =>
      match evaluate r with
      | .error e => .error e
      | .ok right =>
        match operator with
        | .PLUS => .ok (left + right)
        | .MINUS => .ok (left - right)
        | .MUL => .ok (left * right)
        | .NUM => .error (.EvaluationError ("Unknown operator: " ++ TokenType.pyStr .NUM))

/-! ## repl.py -/

/-- `SimpleArithmetic.eval`: the full pipeline, source text to integer. -/
def eval (source : String) : Except PyErr Int :=
  match scan source with
  | .error e => .error e
  | .ok tokens =>
    match parse tokens with
    | .error e => .error e
    | .ok ast => evaluate ast

/-! ## Reference (specification-side) definitions

These state what the claims assert; they are compared against the
embedded code by the theorems below. -/

/-- A well-formed operator/operand chain `t0 op1 t1 … opk tk`, encoded as a
head token and a list of (operator token, operand token) pairs, flattened
into the token list the parser receives. -/
def flat : List (Token × Token) → List Token
  | [] => []
  | p :: r => p.1 :: p.2 :: flat r

/-- The operator token types of the grammar. -/
def isOpType (tt : TokenType) : Prop :=
  tt = TokenType.PLUS ∨ tt = TokenType.MINUS ∨ tt = TokenType.MUL

/-- Chain whose operators are grammar operators and operands are `NUM`. -/
def wfChain (t0 : Token) (rest : List (Token × Token)) : Prop :=
  t0.type = TokenType.NUM ∧ ∀ p ∈ rest, isOpType p.1.type ∧ p.2.type = TokenType.NUM

/-- A lexeme that `int()` accepts: non-empty, all ASCII digits. -/
def digitLexeme (t : Token) : Prop :=
  t.lexeme.data ≠ [] ∧ t.lexeme.data.all Char.isDigit = true

/-- `wfChain` whose operand lexemes are all digit strings. -/
def wfChainD (t0 : Token) (rest : List (Token × Token)) : Prop :=
  wfChain t0 rest ∧ digitLexeme t0 ∧ ∀ p ∈ rest, digitLexeme p.2

/-- The integer value of an operand token's lexeme. -/
def tokVal (t : Token) : Int :=
  (digitsVal t.lexeme.data : Nat)

/-- Does this (operator, operand) pair start with a `MUL` operator? -/
def isMulPair (p : Token × Token) : Bool :=
  p.1.type == TokenType.MUL

/-- Left-fold a run of pairs onto an accumulator node (left-associative
grouping). -/
def mulFoldN (acc : Node) (l : List (Token × Token)) : Node :=
  l.foldl (fun a p => Node.BinOp a p.1.type (Node.Literal p.2)) acc

/-- Close a pending additive context around a finished factor. -/
def applyCtx : Option (Node × TokenType) → Node → Node
  | none, f => f
  | some (s, op), f => Node.BinOp s op f

/-- One step of the reference parse with precedence: a `MUL` pair extends
the current factor (multiplication binds tighter); an additive pair closes
the current factor into the sum built so far (left-associatively) and
opens a new factor. -/
def refStep : (Option (Node × TokenType) × Node) → (Token × Token) →
    (Option (Node × TokenType) × Node)
  | (ctx, fac), (opT, numT) =>
    if opT.type = TokenType.MUL then (ctx, Node.BinOp fac TokenType.MUL (Node.Literal numT))
    else (some (applyCtx ctx fac, opT.type), Node.Literal numT)

/-- The tree the grammar (precedence low→high, left-associative) assigns
to a chain. -/
def refTerm (t0 : Token) (rest : List (Token × Token)) : Node :=
  let st := rest.foldl refStep ((none : Option (Node × TokenType)), Node.Literal t0)
  applyCtx st.1 st.2

/-- Apply an additive operator: `MINUS` is difference, `PLUS` is sum. -/
def addApply (op : TokenType) (a b : Int) : Int :=
  if op = TokenType.MINUS then a - b else a + b

/-- One step of the reference evaluation with precedence, at the value
level: state is (sum so far, pending additive operator, current
product). -/
def evalPrecStep : (Int × TokenType × Int) → (TokenType × Int) →
    (Int × TokenType × Int)
  | (s, pend, prod), (op, v) =>
    if op = TokenType.MUL then (s, pend, prod * v)
    else (addApply pend s prod, op, v)

/-- The value the precedence grammar assigns to a chain of integers:
multiplication binds tighter, both levels group from the left. -/
def evalPrec (v0 : Int) (l : List (TokenType × Int)) : Int :=
  let st := l.foldl evalPrecStep (0, TokenType.PLUS, v0)
  addApply st.2.1 st.1 st.2.2

/-- A character the scanner accepts (one of its lexical classes). -/
def scannable (c : Char) : Bool :=
  c = '+' || c = '-' || c = '*' || pyIsNumeric c || pyIsSpace c

instance (tt : TokenType) : Decidable (isOpType tt) := by
  unfold isOpType
  infer_instance

instance (t : Token) : Decidable (digitLexeme t) := by
  unfold digitLexeme
  infer_instance

instance (t0 : Token) (rest : List (Token × Token)) :
    Decidable (wfChain t0 rest) := by
  unfold wfChain
  infer_instance

instance (t0 : Token) (rest : List (Token × Token)) :
    Decidable (wfChainD t0 rest) := by
  unfold wfChainD
  infer_instance

/-! ## Basic lemmas about the parser's cursor primitives -/

theorem pyGet_natCast (tokens : List Token) (n : Nat) :
    pyGet tokens (n : Int) =
      match tokens[n]? with
      | some t => .ok t
      | none => .error .IndexError := by
  unfold pyGet
  have h0 : ¬((n : Int) < 0) := by omega
  simp only [h0, if_false, Int.toNat_natCast]
  cases tokens[n]? with
  | none => rfl
  | some t => simp [Int.natCast_nonneg]

theorem pyGet_some {tokens : List Token} {n : Nat} {t : Token}
    (h : tokens[n]? = some t) : pyGet tokens (n : Int) = .ok t := by
  rw [pyGet_natCast, h]

theorem pyGet_none {tokens : List Token} {n : Nat}
    (h : tokens.length ≤ n) : pyGet tokens (n : Int) = .error .IndexError := by
  rw [pyGet_natCast, List.getElem?_eq_none h]

theorem is_last_iff (tokens : List Token) (current : Nat) :
    is_last tokens current = true ↔ current + 1 = tokens.length := by
  unfold is_last
  rw [beq_iff_eq]
  omega

theorem is_last_eq_false {tokens : List Token} {current : Nat}
    (h : ¬(current + 1 = tokens.length)) : is_last tokens current = false := by
  rw [Bool.eq_false_iff]
  intro hc
  exact h ((is_last_iff tokens current).mp hc)

theorem is_last_eq_true {tokens : List Token} {current : Nat}
    (h : current + 1 = tokens.length) : is_last tokens current = true :=
  (is_last_iff tokens current).mpr h

theorem advance_of_not_last {tokens : List Token} {current : Nat}
    (h : ¬(current + 1 = tokens.length)) : advance tokens current = current + 1 := by
  unfold advance
  rw [is_last_eq_false h]
  rfl

theorem advance_of_last {tokens : List Token} {current : Nat}
    (h : current + 1 = tokens.length) : advance tokens current = current := by
  unfold advance
  rw [is_last_eq_true h]
  rfl

theorem expected_of_last {tokens : List Token} {current : Nat}
    (h : current + 1 = tokens.length) (tt : TokenType) :
    expected tokens current tt = .ok false := by
  simp only [expected, is_last_eq_true h, if_true]

theorem expected_of_peek {tokens : List Token} {current : Nat} {t : Token}
    (hl : ¬(current + 1 = tokens.length)) (h : tokens[current]? = some t)
    (tt : TokenType) : expected tokens current tt = .ok (t.type == tt) := by
  simp only [expected, is_last_eq_false hl, Bool.false_eq_true, if_false, peek,
    pyGet_some h]

theorem matchTok_nil (tokens : List Token) (current : Nat) :
    matchTok tokens current [] = .ok (false, current) := rfl

theorem matchTok_cons_true {tokens : List Token} {current : Nat} {tt : TokenType}
    (h : expected tokens current tt = .ok true) (tts : List TokenType) :
    matchTok tokens current (tt :: tts) = .ok (true, advance tokens current) := by
  simp only [matchTok, h, if_true]

theorem matchTok_cons_false {tokens : List Token} {current : Nat} {tt : TokenType}
    (h : expected tokens current tt = .ok false) (tts : List TokenType) :
    matchTok tokens current (tt :: tts) = matchTok tokens current tts := by
  simp only [matchTok, h, Bool.false_eq_true, if_false]

theorem previous_succ (tokens : List Token) (n : Nat) :
    previous tokens (n + 1) = pyGet tokens (n : Int) := by
  unfold previous
  congr 1
  push_cast
  ring

theorem literal_num {tokens : List Token} {current : Nat} {t : Token}
    (h : tokens[current]? = some t) (hn : t.type = TokenType.NUM) :
    literal tokens current = .ok (Node.Literal t, advance tokens current) := by
  simp only [literal, pyGet_some h, peek, hn, if_true]

theorem literal_not_num {tokens : List Token} {current : Nat} {t : Token}
    (h : tokens[current]? = some t) (hn : ¬(t.type = TokenType.NUM)) :
    literal tokens current = .error (.ParseError "Wrong syntax") := by
  simp only [literal, pyGet_some h, hn, if_false]

theorem literal_oob {tokens : List Token} {current : Nat}
    (h : tokens.length ≤ current) :
    literal tokens current = .error .IndexError := by
  simp only [literal, pyGet_none h]

/-! ## Scanner lemmas -/

theorem numeric_not_space {c : Char} (h : pyIsNumeric c = true) :
    pyIsSpace c = false := by
  rcases Bool.eq_false_or_eq_true (pyIsSpace c) with ht | hf
  · exfalso
    have hc : c = ' ' ∨ c = '\t' ∨ c = '\n' ∨ c = '\r' ∨ c = '\x0b' ∨ c = '\x0c' := by
      have := ht
      simp only [pyIsSpace, Bool.or_eq_true, decide_eq_true_eq] at this
      tauto
    rcases hc with rfl | rfl | rfl | rfl | rfl | rfl <;> exact absurd h (by decide)
  · exact hf

theorem numRunEnd_ge (source : List Char) :
    ∀ fuel current, current ≤ numRunEnd source fuel current := by
  intro fuel
  induction fuel with
  | zero => intro c; simp [numRunEnd]
  | succ f ih =>
    intro c
    simp only [numRunEnd]
    split
    · exact Nat.le_trans (Nat.le_succ c) (ih (c + 1))
    · exact Nat.le_refl c

theorem numRunEnd_le (source : List Char) :
    ∀ fuel current, current ≤ source.length →
      numRunEnd source fuel current ≤ source.length := by
  intro fuel
  induction fuel with
  | zero => intro c hc; simpa [numRunEnd] using hc
  | succ f ih =>
    intro c hc
    simp only [numRunEnd]
    split
    · next hcond => exact ih (c + 1) (by omega)
    · exact hc

theorem numRunEnd_succ {source : List Char} {current : Nat} (fuel : Nat)
    (h : current < source.length ∧ pyIsNumeric (source.getD current ' ') = true) :
    numRunEnd source (fuel + 1) current = numRunEnd source fuel (current + 1) := by
  simp only [numRunEnd]
  rw [if_pos ⟨h.1, h.2⟩]

theorem numRunEnd_stop (source : List Char) :
    ∀ fuel current, source.length - current < fuel → current ≤ source.length →
      numRunEnd source fuel current = source.length ∨
        pyIsNumeric (source.getD (numRunEnd source fuel current) ' ') = false := by
  intro fuel
  induction fuel with
  | zero => intro c hf _; omega
  | succ f ih =>
    intro c hf hc
    simp only [numRunEnd]
    split
    · next hcond => exact ih (c + 1) (by omega) (by omega)
    · next hcond =>
      rcases Nat.lt_or_ge c source.length with hlt | hge
      · right
        rcases Bool.eq_false_or_eq_true (pyIsNumeric (source.getD c ' ')) with h1 | h0
        · exact absurd ⟨hlt, h1⟩ hcond
        · exact h0
      · left; omega

theorem numRunEnd_numeric (source : List Char) :
    ∀ fuel current j, source.length - current < fuel → current ≤ j →
      j < numRunEnd source fuel current →
      pyIsNumeric (source.getD j ' ') = true := by
  intro fuel
  induction fuel with
  | zero => intro c j hf _ _; omega
  | succ f ih =>
    intro c j hf hcj hj
    rw [numRunEnd] at hj
    split at hj
    · next hcond =>
      rcases Nat.eq_or_lt_of_le hcj with rfl | hlt
      · exact hcond.2
      · exact ih (c + 1) j (by omega) hlt hj
    · omega

theorem run_all_numeric {source : List Char} {a e : Nat} (he : e ≤ source.length)
    (hnum : ∀ j, a ≤ j → j < e → pyIsNumeric (source.getD j ' ') = true) :
    ∀ c ∈ (source.drop a).take (e - a), pyIsNumeric c = true := by
  intro c hc
  rw [List.mem_iff_getElem] at hc
  obtain ⟨i, hi, hci⟩ := hc
  have h1 : i < e - a ∧ a + i < source.length := by
    simp only [List.length_take, List.length_drop, lt_min_iff] at hi
    omega
  rw [List.getElem_take, List.getElem_drop] at hci
  have hc2 : pyIsNumeric (source.getD (a + i) ' ') = true :=
    hnum (a + i) (by omega) (by omega)
  rw [List.getD_eq_getElem source ' ' h1.2] at hc2
  rw [hci] at hc2
  exact hc2

theorem scanAux_concat (source : List Char) :
    ∀ fuel current ts, source.length - current < fuel →
      scanAux source fuel current = .ok ts →
      (ts.map (fun t => t.lexeme.data)).flatten =
        (source.drop current).filter (fun c => !pyIsSpace c) := by
  intro fuel
  induction fuel with
  | zero => intro current ts hf _; omega
  | succ f ih =>
    intro current ts hf hs
    rw [scanAux] at hs
    by_cases h : current < source.length
    case neg =>
      rw [dif_neg h] at hs
      cases hs
      rw [List.drop_eq_nil_of_le (by omega)]
      rfl
    case pos =>
      rw [dif_pos h] at hs
      simp only [] at hs
      set c := source.get ⟨current, h⟩ with hcdef
      have hdrop : source.drop current = c :: source.drop (current + 1) := by
        rw [hcdef, List.get_eq_getElem]
        exact (List.getElem_cons_drop source current h).symm
      by_cases hop : c = '+' ∨ c = '-' ∨ c = '*'
      · rw [if_pos hop] at hs
        cases hs2 : scanAux source f (current + 1) with
        | error e => rw [hs2] at hs; exact absurd hs (by simp [Except.map])
        | ok ts' =>
          rw [hs2] at hs
          have hts : ts = scan_operator c :: ts' := by
            simpa [Except.map] using hs.symm
          subst hts
          have hns : pyIsSpace c = false := by
            rcases hop with h1 | h1 | h1 <;> rw [h1] <;> decide
          rw [hdrop, List.filter_cons_of_pos (by simp [hns])]
          have hrec := ih (current + 1) ts' (by omega) hs2
          simp only [List.map_cons, List.flatten_cons, hrec]
          rfl
      · rw [if_neg hop] at hs
        by_cases hnum : pyIsNumeric c = true
        · rw [if_pos hnum] at hs
          simp only [scan_number] at hs
          have hgetD : source.getD current ' ' = c := by
            rw [List.getD_eq_getElem source ' ' h, hcdef, List.get_eq_getElem]
          set e := numRunEnd source (source.length + 1) current with hedef
          have hstep : e = numRunEnd source source.length (current + 1) :=
            numRunEnd_succ source.length ⟨h, by rw [hgetD]; exact hnum⟩
          have he1 : current + 1 ≤ e := by
            rw [hstep]; exact numRunEnd_ge source source.length (current + 1)
          have he2 : e ≤ source.length :=
            numRunEnd_le source (source.length + 1) current (le_of_lt h)
          have hnums : ∀ j, current ≤ j → j < e → pyIsNumeric (source.getD j ' ') = true :=
            fun j hj hje => numRunEnd_numeric source (source.length + 1) current j
              (by omega) hj hje
          cases hs2 : scanAux source f e with
          | error err => rw [hs2] at hs; exact absurd hs (by simp [Except.map])
          | ok ts' =>
            rw [hs2] at hs
            have hts : ts =
                ⟨TokenType.NUM, String.mk ((source.drop current).take (e - current))⟩ :: ts' := by
              simpa [Except.map] using hs.symm
            subst hts
            have hsplit : source.drop current =
                (source.drop current).take (e - current) ++ source.drop e := by
              have hdd : (source.drop current).drop (e - current) = source.drop e := by
                rw [List.drop_drop]; congr 1; omega
              rw [← hdd, List.take_append_drop]
            have hkeep : List.filter (fun x => !pyIsSpace x)
                ((source.drop current).take (e - current)) =
                (source.drop current).take (e - current) :=
              List.filter_eq_self.mpr (fun a ha => by
                rw [numeric_not_space (run_all_numeric he2 hnums a ha)]; rfl)
            have hrec := ih e ts' (by omega) hs2
            simp only [List.map_cons, List.flatten_cons, hrec]
            rw [← hkeep, ← List.filter_append, ← hsplit]
        · rw [if_neg hnum] at hs
          by_cases hsp : pyIsSpace c = true
          · rw [if_pos hsp] at hs
            rw [hdrop, List.filter_cons_of_neg (by simp [hsp])]
            exact ih (current + 1) ts (by omega) hs
          · rw [if_neg hsp] at hs
            cases hs

theorem scannable_of_numeric {c : Char} (h : pyIsNumeric c = true) :
    scannable c = true := by
  simp [scannable, h]

theorem scanAux_first_bad (pre : List Char) (c : Char) (post : List Char)
    (hpre : ∀ d ∈ pre, scannable d = true) (hc : scannable c = false) :
    ∀ fuel current, current ≤ pre.length →
      (pre ++ c :: post).length - current < fuel →
      scanAux (pre ++ c :: post) fuel current =
        .error (.UnexpectedInputError (String.mk [c])) := by
  have hlen : (pre ++ c :: post).length = pre.length + 1 + post.length := by
    simp [List.length_append]
    omega
  intro fuel
  induction fuel with
  | zero => intro current _ hf; omega
  | succ f ih =>
    intro current hcur hf
    have h : current < (pre ++ c :: post).length := by omega
    rw [scanAux, dif_pos h]
    simp only []
    rcases Nat.eq_or_lt_of_le hcur with heq | hlt
    · -- the cursor sits on the offending character
      have hd2 : (pre ++ c :: post)[current] = c := by
        rw [List.getElem_append_right (by omega : pre.length ≤ current)]
        simp [heq]
      have hd : (pre ++ c :: post).get ⟨current, h⟩ = c := by
        rw [List.get_eq_getElem]; exact hd2
      have hops : ¬(c = '+' ∨ c = '-' ∨ c = '*') := by
        intro hcontra
        rcases hcontra with rfl | rfl | rfl <;> exact absurd hc (by decide)
      have hnum : ¬(pyIsNumeric c = true) := by
        intro h1
        rw [scannable_of_numeric h1] at hc; cases hc
      have hsp : ¬(pyIsSpace c = true) := by
        intro h1
        have : scannable c = true := by simp [scannable, h1]
        rw [this] at hc; cases hc
      rw [hd, if_neg hops, if_neg hnum, if_neg hsp]
    · -- the cursor sits on an earlier, scannable character
      have hpl : current < pre.length := hlt
      have hd2 : (pre ++ c :: post)[current] = pre.getD current ' ' := by
        rw [List.getElem_append_left hpl, List.getD_eq_getElem pre ' ' hpl]
      have hd : (pre ++ c :: post).get ⟨current, h⟩ = pre.getD current ' ' := by
        rw [List.get_eq_getElem]; exact hd2
      set d := pre.getD current ' ' with hddef
      have hdmem : d ∈ pre := by
        rw [hddef, List.getD_eq_getElem pre ' ' hpl]
        exact List.getElem_mem hpl
      have hdscan : scannable d = true := hpre d hdmem
      rw [hd]
      by_cases hop : d = '+' ∨ d = '-' ∨ d = '*'
      · rw [if_pos hop, ih (current + 1) (by omega) (by omega)]
        rfl
      · rw [if_neg hop]
        by_cases hnum : pyIsNumeric d = true
        · rw [if_pos hnum]
          simp only [scan_number]
          have hgetD : (pre ++ c :: post).getD current ' ' = d := by
            rw [List.getD_eq_getElem (pre ++ c :: post) ' ' h]
            exact hd2
          set e := numRunEnd (pre ++ c :: post) ((pre ++ c :: post).length + 1) current
            with hedef
          have hstep : e = numRunEnd (pre ++ c :: post) (pre ++ c :: post).length
              (current + 1) :=
            numRunEnd_succ (pre ++ c :: post).length ⟨h, by rw [hgetD]; exact hnum⟩
          have he1 : current + 1 ≤ e := by
            rw [hstep]
            exact numRunEnd_ge (pre ++ c :: post) (pre ++ c :: post).length (current + 1)
          have he2 : e ≤ pre.length := by
            by_contra hgt
            push_neg at hgt
            have hcnum : pyIsNumeric ((pre ++ c :: post).getD pre.length ' ') = true :=
              numRunEnd_numeric (pre ++ c :: post) ((pre ++ c :: post).length + 1)
                current pre.length (by omega) (by omega) hgt
            have hcc : (pre ++ c :: post).getD pre.length ' ' = c := by
              rw [List.getD_eq_getElem (pre ++ c :: post) ' ' (by omega)]
              rw [List.getElem_append_right (by omega : pre.length ≤ pre.length)]
              simp
            rw [hcc] at hcnum
            rw [scannable_of_numeric hcnum] at hc; cases hc
          rw [ih e he2 (by omega)]
          rfl
        · rw [if_neg hnum]
          by_cases hsp : pyIsSpace d = true
          · rw [if_pos hsp]
            exact ih (current + 1) (by omega) (by omega)
          · exfalso
            have h1 : ¬(d = '+') := fun hh => hop (Or.inl hh)
            have h2 : ¬(d = '-') := fun hh => hop (Or.inr (Or.inl hh))
            have h3 : ¬(d = '*') := fun hh => hop (Or.inr (Or.inr hh))
            have hds : scannable d = false := by
              simp [scannable, h1, h2, h3, Bool.eq_false_iff.mpr hnum,
                Bool.eq_false_iff.mpr hsp]
            rw [hds] at hdscan; cases hdscan

/-! ## Lemmas about `int()` on lexemes -/

theorem pyInt_ok {s : String} (h1 : s.data ≠ []) (h2 : s.data.all Char.isDigit = true) :
    pyInt s = .ok (digitsVal s.data : Nat) := by
  have hne : s.data.isEmpty = false := by
    cases hl : s.data.isEmpty
    · rfl
    · exact absurd (List.isEmpty_iff.mp hl) h1
  simp [pyInt, hne, h2]

theorem pyInt_err {s : String} (h : s.data = [] ∨ s.data.all Char.isDigit = false) :
    pyInt s = .error .ValueError := by
  rcases h with h | h
  · have : s.data.isEmpty = true := List.isEmpty_iff.mpr h
    simp [pyInt, this]
  · simp [pyInt, h]

/-! ## Claim theorems: scanner, evaluator, formatter -/

/-- Claim C3 (evidence for the code bug): `Parser.parse` on the empty token
sequence raises `IndexError` — the unguarded `tokens[0]` read in
`Parser.__literal` indexes out of bounds — and not the `ParseError` the
specification requires. -/
theorem parse_empty_tokens_indexError :
    parse ([] : List Token) = .error .IndexError := rfl

/-- Claim C5 (counterexample): `'½'` is not an ASCII decimal digit, not an
operator and not whitespace, yet `Scanner.scan` accepts it (Python
`str.isnumeric` is Unicode-aware), so the claim "scan fails on every such
character" is false. -/
theorem scan_nonascii_numeric_ok :
    ('½'.isDigit = false ∧ '½' ∉ ['+', '-', '*'] ∧ pyIsSpace '½' = false) ∧
    scan "½" = .ok [⟨TokenType.NUM, "½"⟩] :=
  ⟨by decide, rfl⟩

/-- Claim C5 (amended): for every source string containing a character
outside the scanner's lexical classes (operator, `isnumeric`, whitespace),
`Scanner.scan` fails with `UnexpectedInputError` carrying the first such
character, returning no token list. -/
theorem scan_unexpected_input (s : String) (pre : List Char) (c : Char)
    (post : List Char) (hsplit : s.data = pre ++ c :: post)
    (hpre : ∀ d ∈ pre, scannable d = true) (hc : scannable c = false) :
    scan s = .error (.UnexpectedInputError (String.mk [c])) := by
  unfold scan
  rw [hsplit]
  exact scanAux_first_bad pre c post hpre hc _ 0 (by omega) (by omega)

/-- Witness for C5's amended theorem: scanning `"2 & 3"` fails with
`UnexpectedInputError` referencing `"&"`. -/
theorem scan_unexpected_input_witness :
    scan "2 & 3" = .error (.UnexpectedInputError "&") :=
  scan_unexpected_input "2 & 3" ['2', ' '] '&' [' ', '3'] rfl (by decide) (by decide)

/-- Claim C6 (counterexample): on a `Literal` whose lexeme `"½"` cannot be
converted to a base-10 integer, `Evaluator.visit_Literal` raises the plain
`ValueError` of `int()`, not the claimed `EvaluationError`. -/
theorem visit_Literal_valueError_not_evaluationError :
    evaluate (Node.Literal ⟨TokenType.NUM, "½"⟩) = .error .ValueError := rfl

/-- Claim C6 (amended): on a `Literal` whose lexeme is drawn from the
scanner's `NUM` alphabet, `Evaluator.visit_Literal` returns the base-10
value when the lexeme is a non-empty ASCII-digit string and raises the
plain built-in `ValueError` (not `EvaluationError`) otherwise. -/
theorem visit_Literal_conversion (t : Token)
    (_halpha : t.lexeme.data.all pyIsNumeric = true) :
    (t.lexeme.data ≠ [] → t.lexeme.data.all Char.isDigit = true →
      evaluate (Node.Literal t) = .ok (digitsVal t.lexeme.data : Nat)) ∧
    (t.lexeme.data = [] ∨ t.lexeme.data.all Char.isDigit = false →
      evaluate (Node.Literal t) = .error .ValueError) := by
  constructor
  · intro h1 h2
    show pyInt t.lexeme = _
    exact pyInt_ok h1 h2
  · intro h
    show pyInt t.lexeme = _
    exact pyInt_err h

/-- Witness for C6's amended theorem at the lexemes `"42"` and `"½"`. -/
theorem visit_Literal_conversion_witness :
    evaluate (Node.Literal ⟨TokenType.NUM, "42"⟩) = .ok 42 ∧
    evaluate (Node.Literal ⟨TokenType.NUM, "½"⟩) = .error .ValueError :=
  ⟨(visit_Literal_conversion ⟨TokenType.NUM, "42"⟩ (by decide)).1
      (by decide) (by decide),
   (visit_Literal_conversion ⟨TokenType.NUM, "½"⟩ (by decide)).2
      (by decide)⟩

/-- Claim C7: the scanner scans numbers with maximal munch.
`Scanner.__scan_number` started on a numeric character advances the cursor
strictly, stays within the source, covers only numeric characters, stops
at the end of the source or at the first non-numeric character, and emits
one `NUM` token whose lexeme is exactly that run; in particular
`scan "123+4"` is `[NUM "123", PLUS, NUM "4"]`. -/
theorem maximal_munch (source : List Char) (start : Nat)
    (h : start < source.length)
    (hn : pyIsNumeric (source.getD start ' ') = true) :
    start < (scan_number start source).1 ∧
    (scan_number start source).1 ≤ source.length ∧
    (∀ j, start ≤ j → j < (scan_number start source).1 →
      pyIsNumeric (source.getD j ' ') = true) ∧
    ((scan_number start source).1 = source.length ∨
      pyIsNumeric (source.getD (scan_number start source).1 ' ') = false) ∧
    (scan_number start source).2 = ⟨TokenType.NUM,
      String.mk ((source.drop start).take ((scan_number start source).1 - start))⟩ ∧
    scan "123+4" = .ok [⟨TokenType.NUM, "123"⟩, ⟨TokenType.PLUS, "+"⟩,
      ⟨TokenType.NUM, "4"⟩] := by
  have hstep : numRunEnd source (source.length + 1) start =
      numRunEnd source source.length (start + 1) :=
    numRunEnd_succ source.length ⟨h, hn⟩
  refine ⟨?_, ?_, ?_, ?_, rfl, rfl⟩
  · show start < numRunEnd source (source.length + 1) start
    rw [hstep]
    exact Nat.lt_of_lt_of_le (Nat.lt_succ_self start)
      (numRunEnd_ge source source.length (start + 1))
  · exact numRunEnd_le source (source.length + 1) start (le_of_lt h)
  · exact fun j hj hje => numRunEnd_numeric source (source.length + 1) start j
      (by omega) hj hje
  · exact numRunEnd_stop source (source.length + 1) start (by omega) (le_of_lt h)

/-- Witness for C7 at the source `"99x"`, cursor `0`. -/
theorem maximal_munch_witness :
    0 < (scan_number 0 "99x".data).1 ∧
    (scan_number 0 "99x".data).2 = ⟨TokenType.NUM, "99"⟩ :=
  ⟨(maximal_munch "99x".data 0 (by decide) (by decide)).1,
   (maximal_munch "99x".data 0 (by decide) (by decide)).2.2.2.2.1⟩

/-- Claim C8: the `Formatter` visitor renders a `BinOp` as the fully
parenthesized prefix expression `"(OP left right)"` and a `Literal` as its
lexeme, and on `parse(scan("2+3*4"))` it renders `"(PLUS 2 (MUL 3 4))"`. -/
theorem formatter_renders :
    (∀ l operator r, format (Node.BinOp l operator r) =
      "(" ++ operator.value ++ " " ++ format l ++ " " ++ format r ++ ")") ∧
    (∀ t, format (Node.Literal t) = t.lexeme) ∧
    ((scan "2+3*4").bind parse).map format = .ok "(PLUS 2 (MUL 3 4))" :=
  ⟨fun _ _ _ => rfl, fun _ => rfl, rfl⟩

/-- Claim C9: whenever `Scanner.scan` succeeds, the concatenation of the
returned lexemes, in order, is exactly the source with its whitespace
characters removed. -/
theorem scan_lexeme_concat (s : String) (ts : List Token)
    (h : scan s = .ok ts) :
    (ts.map (fun t => t.lexeme.data)).flatten =
      s.data.filter (fun c => !pyIsSpace c) := by
  have := scanAux_concat s.data (s.data.length + 1) 0 ts (by omega) h
  simpa using this

/-- Witness for C9 at the source `" 1 + 23 "`. -/
theorem scan_lexeme_concat_witness :
    scan " 1 + 23 " = .ok [⟨TokenType.NUM, "1"⟩, ⟨TokenType.PLUS, "+"⟩,
      ⟨TokenType.NUM, "23"⟩] ∧
    (([⟨TokenType.NUM, "1"⟩, ⟨TokenType.PLUS, "+"⟩, ⟨TokenType.NUM, "23"⟩] :
        List Token).map (fun t => t.lexeme.data)).flatten =
      " 1 + 23 ".data.filter (fun c => !pyIsSpace c) :=
  ⟨rfl, scan_lexeme_concat " 1 + 23 " _ rfl⟩

/-- Claim C10: the single-character source `"½"` — not an ASCII digit,
operator or whitespace — scans successfully as one `NUM` token, and the
full pipeline `SimpleArithmetic.eval` then fails with the plain built-in
`ValueError` from integer conversion, which is none of
`UnexpectedInputError`, `ParseError`, `EvaluationError`. -/
theorem unicode_numeric_plain_valueError :
    ('½'.isDigit = false ∧ '½' ∉ ['+', '-', '*'] ∧ pyIsSpace '½' = false) ∧
    scan "½" = .ok [⟨TokenType.NUM, "½"⟩] ∧
    eval "½" = .error .ValueError ∧
    (∀ m, eval "½" ≠ .error (.UnexpectedInputError m)) ∧
    (∀ m, eval "½" ≠ .error (.ParseError m)) ∧
    (∀ m, eval "½" ≠ .error (.EvaluationError m)) := by
  refine ⟨by decide, rfl, rfl, ?_, ?_, ?_⟩ <;>
    · intro m hm
      rw [show eval "½" = .error .ValueError from rfl] at hm
      cases hm

/-! ## Parser lemmas: chains of operands and operators -/

theorem flat_length (l : List (Token × Token)) : (flat l).length = 2 * l.length := by
  induction l with
  | nil => rfl
  | cons p r ih => simp [flat, ih]; omega

theorem flat_append (l1 l2 : List (Token × Token)) :
    flat (l1 ++ l2) = flat l1 ++ flat l2 := by
  induction l1 with
  | nil => rfl
  | cons p r ih => simp [flat, ih]

theorem takeWhile_all {α} (p : α → Bool) :
    ∀ l : List α, ∀ x ∈ l.takeWhile p, p x = true := by
  intro l
  induction l with
  | nil => intro x hx; cases hx
  | cons a l ih =>
    intro x hx
    by_cases ha : p a = true
    · rw [List.takeWhile_cons_of_pos ha] at hx
      rcases List.mem_cons.mp hx with rfl | hx'
      · exact ha
      · exact ih x hx'
    · rw [List.takeWhile_cons_of_neg ha] at hx
      cases hx

theorem dropWhile_head_false {α} (p : α → Bool) :
    ∀ l : List α, ∀ q ∈ (l.dropWhile p).head?, p q = false := by
  intro l
  induction l with
  | nil => intro q hq; cases hq
  | cons a l ih =>
    intro q hq
    by_cases ha : p a = true
    · rw [List.dropWhile_cons_of_pos ha] at hq
      exact ih q hq
    · rw [List.dropWhile_cons_of_neg ha] at hq
      cases hq
      exact Bool.eq_false_iff.mpr ha

theorem isMulPair_type {p : Token × Token} (h : isMulPair p = true) :
    p.1.type = TokenType.MUL := by
  simpa [isMulPair] using h

theorem isMulPair_false_type {p : Token × Token} (h : isMulPair p = false) :
    p.1.type ≠ TokenType.MUL := by
  simpa [isMulPair] using h

/-- Folding `refStep` over a run of `MUL` pairs leaves the context alone
and extends the factor left-associatively. -/
theorem foldl_refStep_mul :
    ∀ (tw : List (Token × Token)) (ctx : Option (Node × TokenType)) (fac : Node),
      (∀ q ∈ tw, isMulPair q = true) →
      tw.foldl refStep (ctx, fac) = (ctx, mulFoldN fac tw) := by
  intro tw
  induction tw with
  | nil => intro ctx fac _; rfl
  | cons q tw' ih =>
    intro ctx fac hall
    have hq : isMulPair q = true := hall q (List.mem_cons_self q tw')
    have hqt : q.1.type = TokenType.MUL := isMulPair_type hq
    have hstep : refStep (ctx, fac) q = (ctx, Node.BinOp fac q.1.type (Node.Literal q.2)) := by
      obtain ⟨o, t⟩ := q
      simp only [refStep]
      rw [if_pos hqt]
      simp only at hqt
      rw [hqt]
    rw [List.foldl_cons, hstep, ih ctx _ (fun x hx => hall x (List.mem_cons_of_mem q hx))]
    rfl

/-- A closed additive context around the factor and a fresh `none` context
around the combined node describe the same tree, as long as the next pair
is not a `MUL` pair. -/
theorem foldl_refStep_shift (s : Node) (op : TokenType) (fac : Node)
    (dw : List (Token × Token)) (hhead : ∀ q ∈ dw.head?, isMulPair q = false) :
    applyCtx (dw.foldl refStep (some (s, op), fac)).1
        (dw.foldl refStep (some (s, op), fac)).2 =
      applyCtx (dw.foldl refStep (none, Node.BinOp s op fac)).1
        (dw.foldl refStep (none, Node.BinOp s op fac)).2 := by
  cases dw with
  | nil => rfl
  | cons q dw' =>
    have hq : isMulPair q = false := hhead q (by rw [List.head?_cons]; rfl)
    have hqt : q.1.type ≠ TokenType.MUL := isMulPair_false_type hq
    obtain ⟨o, t⟩ := q
    simp only [List.foldl_cons, refStep]
    rw [if_neg hqt, if_neg hqt]
    rfl

/-- Folding `refStep` over an all-additive list builds the left-nested
tree. -/
theorem foldl_refStep_additive :
    ∀ (l : List (Token × Token)) (ctx : Option (Node × TokenType)) (fac : Node),
      (∀ q ∈ l, isMulPair q = false) →
      applyCtx (l.foldl refStep (ctx, fac)).1 (l.foldl refStep (ctx, fac)).2 =
        l.foldl (fun a p => Node.BinOp a p.1.type (Node.Literal p.2))
          (applyCtx ctx fac) := by
  intro l
  induction l with
  | nil => intro ctx fac _; rfl
  | cons q l' ih =>
    intro ctx fac hall
    have hq : isMulPair q = false := hall q (List.mem_cons_self q l')
    have hqt : q.1.type ≠ TokenType.MUL := isMulPair_false_type hq
    obtain ⟨o, t⟩ := q
    simp only [List.foldl_cons, refStep]
    rw [if_neg hqt]
    exact ih _ _ (fun x hx => hall x (List.mem_cons_of_mem _ hx))

/-- Behaviour of the `factor` loop on a well-formed chain: with the cursor
sitting just after a parsed operand (`done` is the consumed prefix), the
loop consumes exactly the maximal run of `MUL` pairs, folding them
left-associatively onto the accumulator.  The cursor is `min` the logical
position and `length - 1` because `Parser.__advance` refuses to move past
the last token. -/
theorem factorLoop_flat :
    ∀ (rem : List (Token × Token)) (done : List Token) (acc : Node) (fuel : Nat),
      1 ≤ done.length →
      (∀ p ∈ rem, isOpType p.1.type ∧ p.2.type = TokenType.NUM) →
      rem.length < fuel →
      factorLoop (done ++ flat rem) fuel acc
          (min done.length ((done ++ flat rem).length - 1)) =
        .ok (mulFoldN acc (rem.takeWhile isMulPair),
          min (done.length + 2 * (rem.takeWhile isMulPair).length)
            ((done ++ flat rem).length - 1)) := by
  intro rem
  induction rem with
  | nil =>
    intro done acc fuel hd hw hf
    cases fuel with
    | zero => omega
    | succ f =>
      have hL : (done ++ flat []).length = done.length := by simp [flat]
      have hcur : min done.length ((done ++ flat []).length - 1) = done.length - 1 := by
        rw [hL]; omega
      rw [hcur]
      simp only [factorLoop]
      simp only [matchTok_cons_false
        (@expected_of_last (done ++ flat []) (done.length - 1) (by rw [hL]; omega)
          TokenType.MUL), matchTok_nil]
      have hfin : min (done.length + 2 * (List.takeWhile isMulPair
          ([] : List (Token × Token))).length) ((done ++ flat []).length - 1) =
          done.length - 1 := by
        simp only [List.takeWhile_nil, List.length_nil, Nat.mul_zero, Nat.add_zero, hL]
        omega
      rw [hfin]
      simp [mulFoldN]
  | cons p rem' ih =>
    intro done acc fuel hd hw hf
    obtain ⟨opT, numT⟩ := p
    simp only [List.length_cons] at hf
    cases fuel with
    | zero => omega
    | succ f =>
      have hw1 := hw (opT, numT) (List.mem_cons_self _ _)
      have hw' : ∀ q ∈ rem', isOpType q.1.type ∧ q.2.type = TokenType.NUM :=
        fun q hq => hw q (List.mem_cons_of_mem _ hq)
      have hL : (done ++ flat ((opT, numT) :: rem')).length =
          done.length + 2 + 2 * rem'.length := by
        rw [List.length_append, flat_length]
        simp
        omega
      set T := done ++ flat ((opT, numT) :: rem') with hT
      have hcur : min done.length (T.length - 1) = done.length := by omega
      have hget0 : T[done.length]? = some opT := by
        rw [hT, List.getElem?_append_right (Nat.le_refl _)]
        simp [flat]
      have hget1 : T[done.length + 1]? = some numT := by
        rw [hT, List.getElem?_append_right (by omega : done.length ≤ done.length + 1)]
        simp [flat]
      have hnotlast0 : ¬(done.length + 1 = T.length) := by omega
      rw [hcur]
      simp only [factorLoop]
      by_cases hMul : opT.type = TokenType.MUL
      · -- `MUL` pair: the loop consumes it and recurses
        have hexp : expected T done.length TokenType.MUL = .ok true := by
          rw [expected_of_peek hnotlast0 hget0, hMul]
          rfl
        simp only [matchTok_cons_true hexp, advance_of_not_last hnotlast0,
          previous_succ, pyGet_some hget0, literal_num hget1 hw1.2]
        have hadv : advance T (done.length + 1) =
            min (done.length + 2) (T.length - 1) := by
          by_cases hemp : rem' = []
          · subst hemp
            simp only [List.length_nil, Nat.mul_zero, Nat.add_zero] at hL
            rw [advance_of_last (by omega)]
            omega
          · have hlen1 : 1 ≤ rem'.length := by
              cases rem' with
              | nil => exact absurd rfl hemp
              | cons a b => simp
            rw [advance_of_not_last (by omega)]
            omega
        rw [hadv]
        have htok : T = (done ++ [opT, numT]) ++ flat rem' := by
          rw [hT]; simp [flat]
        have hlen2 : (done ++ [opT, numT]).length = done.length + 2 := by simp
        have hrec := ih (done ++ [opT, numT])
          (Node.BinOp acc opT.type (Node.Literal numT)) f (by simp) hw' (by omega)
        rw [← htok, hlen2] at hrec
        rw [hrec]
        have htw : List.takeWhile isMulPair ((opT, numT) :: rem') =
            (opT, numT) :: List.takeWhile isMulPair rem' :=
          List.takeWhile_cons_of_pos (by simp [isMulPair, hMul])
        rw [htw]
        have harith : done.length + 2 + 2 * (List.takeWhile isMulPair rem').length =
            done.length + 2 * ((opT, numT) :: List.takeWhile isMulPair rem').length := by
          simp [List.length_cons]
          omega
        rw [← harith]
        simp only [mulFoldN, List.foldl_cons]
      · -- non-`MUL` pair: the loop exits without consuming anything
        have hexp : expected T done.length TokenType.MUL = .ok false := by
          rw [expected_of_peek hnotlast0 hget0]
          congr 1
          exact beq_eq_false_iff_ne.mpr hMul
        simp only [matchTok_cons_false hexp, matchTok_nil]
        have htw : List.takeWhile isMulPair ((opT, numT) :: rem') = [] :=
          List.takeWhile_cons_of_neg (by simp [isMulPair, hMul])
        rw [htw]
        have hfin : min (done.length + 2 * (List.length
            ([] : List (Token × Token)))) (T.length - 1) = done.length := by
          simp only [List.length_nil, Nat.mul_zero, Nat.add_zero]
          omega
        rw [hfin]
        simp [mulFoldN]

/-- Behaviour of the `term` loop on a well-formed chain whose next pair
(if any) is additive: the loop consumes the whole remainder, alternating
additive steps with `factor` calls, and builds exactly the tree described
by folding `refStep`. -/
theorem termLoop_flat :
    ∀ (fuel : Nat) (rem : List (Token × Token)) (done : List Token) (acc : Node),
      1 ≤ done.length →
      (∀ p ∈ rem, isOpType p.1.type ∧ p.2.type = TokenType.NUM) →
      (∀ q ∈ rem.head?, isMulPair q = false) →
      rem.length < fuel →
      termLoop (done ++ flat rem) fuel acc
          (min done.length ((done ++ flat rem).length - 1)) =
        .ok (applyCtx (rem.foldl refStep (none, acc)).1
              (rem.foldl refStep (none, acc)).2,
          (done ++ flat rem).length - 1) := by
  intro fuel
  induction fuel with
  | zero => intro rem done acc _ _ _ hf; omega
  | succ f ih =>
    intro rem done acc hd hw hhead hf
    cases rem with
    | nil =>
      have hL : (done ++ flat []).length = done.length := by simp [flat]
      have hcur : min done.length ((done ++ flat []).length - 1) =
          done.length - 1 := by
        rw [hL]; omega
      rw [hcur]
      simp only [termLoop]
      simp only [matchTok_cons_false
          (@expected_of_last (done ++ flat []) (done.length - 1)
            (by rw [hL]; omega) TokenType.PLUS),
        matchTok_cons_false
          (@expected_of_last (done ++ flat []) (done.length - 1)
            (by rw [hL]; omega) TokenType.MINUS),
        matchTok_nil]
      rw [hL]
      rfl
    | cons p rem' =>
      obtain ⟨opT, numT⟩ := p
      simp only [List.length_cons] at hf
      have hw1 := hw (opT, numT) (List.mem_cons_self _ _)
      have hw' : ∀ q ∈ rem', isOpType q.1.type ∧ q.2.type = TokenType.NUM :=
        fun q hq => hw q (List.mem_cons_of_mem _ hq)
      have hMulNe : opT.type ≠ TokenType.MUL :=
        isMulPair_false_type (hhead (opT, numT) (by rw [List.head?_cons]; rfl))
      have hadd : opT.type = TokenType.PLUS ∨ opT.type = TokenType.MINUS := by
        rcases hw1.1 with h1 | h1 | h1
        · exact Or.inl h1
        · exact Or.inr h1
        · exact absurd h1 hMulNe
      have hL : (done ++ flat ((opT, numT) :: rem')).length =
          done.length + 2 + 2 * rem'.length := by
        rw [List.length_append, flat_length]
        simp
        omega
      set T := done ++ flat ((opT, numT) :: rem') with hT
      have hcur : min done.length (T.length - 1) = done.length := by omega
      have hget0 : T[done.length]? = some opT := by
        rw [hT, List.getElem?_append_right (Nat.le_refl _)]
        simp [flat]
      have hget1 : T[done.length + 1]? = some numT := by
        rw [hT, List.getElem?_append_right (by omega : done.length ≤ done.length + 1)]
        simp [flat]
      have hnotlast0 : ¬(done.length + 1 = T.length) := by omega
      rw [hcur]
      simp only [termLoop]
      have hmt : matchTok T done.length [TokenType.PLUS, TokenType.MINUS] =
          .ok (true, done.length + 1) := by
        rcases hadd with hP | hM
        · rw [matchTok_cons_true
            (show expected T done.length TokenType.PLUS = .ok true by
              rw [expected_of_peek hnotlast0 hget0, hP]; rfl),
            advance_of_not_last hnotlast0]
        · rw [matchTok_cons_false
            (show expected T done.length TokenType.PLUS = .ok false by
              rw [expected_of_peek hnotlast0 hget0, hM]; rfl),
            matchTok_cons_true
            (show expected T done.length TokenType.MINUS = .ok true by
              rw [expected_of_peek hnotlast0 hget0, hM]; rfl),
            advance_of_not_last hnotlast0]
      have htok : T = (done ++ [opT, numT]) ++ flat rem' := by
        rw [hT]; simp [flat]
      have hlen2 : (done ++ [opT, numT]).length = done.length + 2 := by simp
      have hfac : factor T (done.length + 1) =
          .ok (mulFoldN (Node.Literal numT) (List.takeWhile isMulPair rem'),
            min (done.length + 2 + 2 * (List.takeWhile isMulPair rem').length)
              (T.length - 1)) := by
        have hadv : advance T (done.length + 1) =
            min (done.length + 2) (T.length - 1) := by
          by_cases hemp : rem' = []
          · subst hemp
            simp only [List.length_nil, Nat.mul_zero, Nat.add_zero] at hL
            rw [advance_of_last (by omega)]
            omega
          · have hlen1 : 1 ≤ rem'.length := by
              cases rem' with
              | nil => exact absurd rfl hemp
              | cons a b => simp
            rw [advance_of_not_last (by omega)]
            omega
        have hrec := factorLoop_flat rem' (done ++ [opT, numT])
          (Node.Literal numT) (T.length + 1) (by simp) hw' (by omega)
        rw [← htok, hlen2] at hrec
        simp only [factor, literal_num hget1 hw1.2, hadv]
        rw [hrec]
      simp only [hmt, previous_succ, pyGet_some hget0, hfac]
      have hdone3 : ((done ++ [opT, numT]) ++
          flat (List.takeWhile isMulPair rem')).length =
          done.length + 2 + 2 * (List.takeWhile isMulPair rem').length := by
        simp [flat_length]
        omega
      have htok3 : T = ((done ++ [opT, numT]) ++
          flat (List.takeWhile isMulPair rem')) ++
          flat (List.dropWhile isMulPair rem') := by
        rw [htok]
        conv_lhs => rw [show rem' =
          List.takeWhile isMulPair rem' ++ List.dropWhile isMulPair rem' from
          (List.takeWhile_append_dropWhile isMulPair rem').symm]
        rw [flat_append]
        simp [List.append_assoc]
      have hw3 : ∀ q ∈ List.dropWhile isMulPair rem',
          isOpType q.1.type ∧ q.2.type = TokenType.NUM :=
        fun q hq => hw' q ((List.dropWhile_sublist isMulPair).subset hq)
      have hf3 : (List.dropWhile isMulPair rem').length < f := by
        have := (List.dropWhile_sublist (l := rem') isMulPair).length_le
        omega
      have hIH := ih (List.dropWhile isMulPair rem')
        ((done ++ [opT, numT]) ++ flat (List.takeWhile isMulPair rem'))
        (Node.BinOp acc opT.type
          (mulFoldN (Node.Literal numT) (List.takeWhile isMulPair rem')))
        (by simp only [List.length_append, List.length_cons, List.length_nil]; omega)
        hw3 (dropWhile_head_false isMulPair rem') hf3
      rw [← htok3, hdone3] at hIH
      rw [hIH]
      have hr0 : refStep (none, acc) (opT, numT) =
          (some (acc, opT.type), Node.Literal numT) := by
        simp only [refStep]
        rw [if_neg hMulNe]
        rfl
      have h2 : List.foldl refStep (some (acc, opT.type), Node.Literal numT) rem' =
          List.foldl refStep (some (acc, opT.type),
            mulFoldN (Node.Literal numT) (List.takeWhile isMulPair rem'))
            (List.dropWhile isMulPair rem') := by
        conv_lhs => rw [show rem' =
          List.takeWhile isMulPair rem' ++ List.dropWhile isMulPair rem' from
          (List.takeWhile_append_dropWhile isMulPair rem').symm]
        rw [List.foldl_append,
          foldl_refStep_mul (List.takeWhile isMulPair rem') _ _
            (takeWhile_all isMulPair rem')]
      have hnode : applyCtx ((((opT, numT) :: rem').foldl refStep (none, acc)).1)
            ((((opT, numT) :: rem').foldl refStep (none, acc)).2) =
          applyCtx (((List.dropWhile isMulPair rem').foldl refStep (none,
              Node.BinOp acc opT.type (mulFoldN (Node.Literal numT)
                (List.takeWhile isMulPair rem')))).1)
            (((List.dropWhile isMulPair rem').foldl refStep (none,
              Node.BinOp acc opT.type (mulFoldN (Node.Literal numT)
                (List.takeWhile isMulPair rem')))).2) := by
        rw [List.foldl_cons, hr0, h2]
        exact foldl_refStep_shift acc opT.type _ _
          (dropWhile_head_false isMulPair rem')
      rw [hnode]

/-- `factorLoop_flat` generalized with a trailing suffix `tail` of
unconsumed tokens after the chain.  The boundary token (the head of
`tail`) is only inspected when the loop consumes all of `rem`, i.e. when
`rem` is all `MUL` pairs; in that case it must not be a `MUL` token for
the loop to stop there. -/
theorem factorLoop_flat_tail :
    ∀ (rem : List (Token × Token)) (done : List Token) (acc : Node) (fuel : Nat)
      (tail : List Token),
      1 ≤ done.length →
      (∀ p ∈ rem, isOpType p.1.type ∧ p.2.type = TokenType.NUM) →
      rem.length < fuel →
      (List.dropWhile isMulPair rem = [] →
        ∀ b ∈ tail.head?, b.type ≠ TokenType.MUL) →
      factorLoop (done ++ flat rem ++ tail) fuel acc
          (min done.length ((done ++ flat rem ++ tail).length - 1)) =
        .ok (mulFoldN acc (rem.takeWhile isMulPair),
          min (done.length + 2 * (rem.takeWhile isMulPair).length)
            ((done ++ flat rem ++ tail).length - 1)) := by
  intro rem
  induction rem with
  | nil =>
    intro done acc fuel tail hd hw hf hb
    cases fuel with
    | zero => omega
    | succ f =>
      have hbb : ∀ b ∈ tail.head?, b.type ≠ TokenType.MUL := hb rfl
      have hL : (done ++ flat [] ++ tail).length = done.length + tail.length := by
        simp [flat]
      rcases Nat.lt_or_ge tail.length 2 with hsmall | hbig
      · -- zero or one trailing token: `__is_last` makes the lookahead fail
        have hcur : min done.length ((done ++ flat [] ++ tail).length - 1) =
            (done ++ flat [] ++ tail).length - 1 := by omega
        rw [hcur]
        simp only [factorLoop]
        simp only [matchTok_cons_false
          (@expected_of_last (done ++ flat [] ++ tail)
            ((done ++ flat [] ++ tail).length - 1) (by omega) TokenType.MUL),
          matchTok_nil]
        have hfin : min (done.length + 2 *
            (List.takeWhile isMulPair ([] : List (Token × Token))).length)
            ((done ++ flat [] ++ tail).length - 1) =
            (done ++ flat [] ++ tail).length - 1 := by
          simp only [List.takeWhile_nil, List.length_nil, Nat.mul_zero,
            Nat.add_zero]
          omega
        rw [hfin]
        simp [mulFoldN]
      · -- at least two trailing tokens: the lookahead reads the non-MUL head
        cases tail with
        | nil => simp at hbig
        | cons b tb =>
          have hbne : b.type ≠ TokenType.MUL :=
            hbb b (by rw [List.head?_cons]; rfl)
          simp only [List.length_cons] at hbig hL
          have hcur : min done.length
              ((done ++ flat [] ++ (b :: tb)).length - 1) = done.length := by
            omega
          have hget : (done ++ flat [] ++ (b :: tb))[done.length]? = some b := by
            rw [List.getElem?_append_right (by simp [flat])]
            simp [flat]
          rw [hcur]
          simp only [factorLoop]
          have hexp : expected (done ++ flat [] ++ (b :: tb)) done.length
              TokenType.MUL = .ok false := by
            rw [expected_of_peek (by omega) hget]
            congr 1
            exact beq_eq_false_iff_ne.mpr hbne
          simp only [matchTok_cons_false hexp, matchTok_nil]
          have hfin : min (done.length + 2 *
              (List.takeWhile isMulPair ([] : List (Token × Token))).length)
              ((done ++ flat [] ++ (b :: tb)).length - 1) = done.length := by
            simp only [List.takeWhile_nil, List.length_nil, Nat.mul_zero,
              Nat.add_zero]
            omega
          rw [hfin]
          simp [mulFoldN]
  | cons p rem' ih =>
    intro done acc fuel tail hd hw hf hb
    obtain ⟨opT, numT⟩ := p
    simp only [List.length_cons] at hf
    cases fuel with
    | zero => omega
    | succ f =>
      have hw1 := hw (opT, numT) (List.mem_cons_self _ _)
      have hw' : ∀ q ∈ rem', isOpType q.1.type ∧ q.2.type = TokenType.NUM :=
        fun q hq => hw q (List.mem_cons_of_mem _ hq)
      have hL : (done ++ flat ((opT, numT) :: rem') ++ tail).length =
          done.length + 2 + 2 * rem'.length + tail.length := by
        simp only [List.length_append, flat_length, List.length_cons]
        omega
      set T := done ++ flat ((opT, numT) :: rem') ++ tail with hT
      have hcur : min done.length (T.length - 1) = done.length := by omega
      have hget0 : T[done.length]? = some opT := by
        rw [hT, List.getElem?_append_left
            (by simp only [List.length_append, flat_length, List.length_cons]; omega),
          List.getElem?_append_right (Nat.le_refl _)]
        simp [flat]
      have hget1 : T[done.length + 1]? = some numT := by
        rw [hT, List.getElem?_append_left
            (by simp only [List.length_append, flat_length, List.length_cons]; omega),
          List.getElem?_append_right (by omega : done.length ≤ done.length + 1)]
        simp [flat]
      have hnotlast0 : ¬(done.length + 1 = T.length) := by omega
      rw [hcur]
      simp only [factorLoop]
      by_cases hMul : opT.type = TokenType.MUL
      · -- `MUL` pair: the loop consumes it and recurses
        have hexp : expected T done.length TokenType.MUL = .ok true := by
          rw [expected_of_peek hnotlast0 hget0, hMul]
          rfl
        simp only [matchTok_cons_true hexp, advance_of_not_last hnotlast0,
          previous_succ, pyGet_some hget0, literal_num hget1 hw1.2]
        have hadv : advance T (done.length + 1) =
            min (done.length + 2) (T.length - 1) := by
          by_cases hemp : rem' = [] ∧ tail = []
          · obtain ⟨he1, he2⟩ := hemp
            subst he1; subst he2
            simp only [List.length_nil, Nat.mul_zero, Nat.add_zero] at hL
            rw [advance_of_last (by omega)]
            omega
          · have hne : ¬(done.length + 1 + 1 = T.length) := by
              intro hcon
              apply hemp
              constructor
              · rw [← List.length_eq_zero]; omega
              · rw [← List.length_eq_zero]; omega
            rw [advance_of_not_last hne]
            omega
        rw [hadv]
        have htok : T = (done ++ [opT, numT]) ++ flat rem' ++ tail := by
          rw [hT]
          simp [flat, List.append_assoc]
        have hlen2 : (done ++ [opT, numT]).length = done.length + 2 := by simp
        have hb' : List.dropWhile isMulPair rem' = [] →
            ∀ b ∈ tail.head?, b.type ≠ TokenType.MUL := by
          intro hdw
          apply hb
          rw [List.dropWhile_cons_of_pos (by simp [isMulPair, hMul])]
          exact hdw
        have hrec := ih (done ++ [opT, numT])
          (Node.BinOp acc opT.type (Node.Literal numT)) f tail (by simp) hw'
          (by omega) hb'
        rw [← htok, hlen2] at hrec
        rw [hrec]
        have htw : List.takeWhile isMulPair ((opT, numT) :: rem') =
            (opT, numT) :: List.takeWhile isMulPair rem' :=
          List.takeWhile_cons_of_pos (by simp [isMulPair, hMul])
        rw [htw]
        have harith : done.length + 2 + 2 * (List.takeWhile isMulPair rem').length =
            done.length + 2 * ((opT, numT) :: List.takeWhile isMulPair rem').length := by
          simp [List.length_cons]
          omega
        rw [← harith]
        simp only [mulFoldN, List.foldl_cons]
      · -- non-`MUL` pair: the loop exits without consuming anything
        have hexp : expected T done.length TokenType.MUL = .ok false := by
          rw [expected_of_peek hnotlast0 hget0]
          congr 1
          exact beq_eq_false_iff_ne.mpr hMul
        simp only [matchTok_cons_false hexp, matchTok_nil]
        have htw : List.takeWhile isMulPair ((opT, numT) :: rem') = [] :=
          List.takeWhile_cons_of_neg (by simp [isMulPair, hMul])
        rw [htw]
        have hfin : min (done.length + 2 * (List.length
            ([] : List (Token × Token)))) (T.length - 1) = done.length := by
          simp only [List.length_nil, Nat.mul_zero, Nat.add_zero]
          omega
        rw [hfin]
        simp [mulFoldN]

/-- When the run of `MUL` pairs is followed by a further `MUL` operator
token whose operand position holds a non-`NUM` token, the `factor` loop
matches that operator (it is not the final token — the non-`NUM` token
follows it) and then fails in `literal` with `ParseError`. -/
theorem factorLoop_err :
    ∀ (rem : List (Token × Token)) (done : List Token) (acc : Node) (fuel : Nat)
      (op bad : Token) (ts : List Token),
      1 ≤ done.length →
      (∀ p ∈ rem, p.1.type = TokenType.MUL ∧ p.2.type = TokenType.NUM) →
      rem.length < fuel →
      op.type = TokenType.MUL →
      bad.type ≠ TokenType.NUM →
      factorLoop (done ++ flat rem ++ op :: bad :: ts) fuel acc
          (min done.length ((done ++ flat rem ++ op :: bad :: ts).length - 1)) =
        .error (.ParseError "Wrong syntax") := by
  intro rem
  induction rem with
  | nil =>
    intro done acc fuel op bad ts hd hw hf hop hbad
    cases fuel with
    | zero => omega
    | succ f =>
      have hL : (done ++ flat [] ++ op :: bad :: ts).length =
          done.length + 2 + ts.length := by
        simp [flat]
        omega
      set T := done ++ flat [] ++ op :: bad :: ts with hT
      have hcur : min done.length (T.length - 1) = done.length := by omega
      have hget0 : T[done.length]? = some op := by
        rw [hT, List.getElem?_append_right (by simp [flat])]
        simp [flat]
      have hget1 : T[done.length + 1]? = some bad := by
        rw [hT, List.getElem?_append_right (by simp [flat])]
        simp [flat]
      have hnotlast0 : ¬(done.length + 1 = T.length) := by omega
      rw [hcur]
      simp only [factorLoop]
      have hexp : expected T done.length TokenType.MUL = .ok true := by
        rw [expected_of_peek hnotlast0 hget0, hop]
        rfl
      simp only [matchTok_cons_true hexp, advance_of_not_last hnotlast0,
        previous_succ, pyGet_some hget0, literal_not_num hget1 hbad]
  | cons p rem' ih =>
    intro done acc fuel op bad ts hd hw hf hop hbad
    obtain ⟨opT, numT⟩ := p
    simp only [List.length_cons] at hf
    cases fuel with
    | zero => omega
    | succ f =>
      have hw1 := hw (opT, numT) (List.mem_cons_self _ _)
      have hw' : ∀ q ∈ rem', q.1.type = TokenType.MUL ∧ q.2.type = TokenType.NUM :=
        fun q hq => hw q (List.mem_cons_of_mem _ hq)
      have hL : (done ++ flat ((opT, numT) :: rem') ++ op :: bad :: ts).length =
          done.length + 2 + 2 * rem'.length + 2 + ts.length := by
        simp only [List.length_append, flat_length, List.length_cons]
        omega
      set T := done ++ flat ((opT, numT) :: rem') ++ op :: bad :: ts with hT
      have hcur : min done.length (T.length - 1) = done.length := by omega
      have hget0 : T[done.length]? = some opT := by
        rw [hT, List.getElem?_append_left
            (by simp only [List.length_append, flat_length, List.length_cons]; omega),
          List.getElem?_append_right (Nat.le_refl _)]
        simp [flat]
      have hget1 : T[done.length + 1]? = some numT := by
        rw [hT, List.getElem?_append_left
            (by simp only [List.length_append, flat_length, List.length_cons]; omega),
          List.getElem?_append_right (by omega : done.length ≤ done.length + 1)]
        simp [flat]
      have hnotlast0 : ¬(done.length + 1 = T.length) := by omega
      rw [hcur]
      simp only [factorLoop]
      have hexp : expected T done.length TokenType.MUL = .ok true := by
        rw [expected_of_peek hnotlast0 hget0, hw1.1]
        rfl
      simp only [matchTok_cons_true hexp, advance_of_not_last hnotlast0,
        previous_succ, pyGet_some hget0, literal_num hget1 hw1.2]
      have hadv : advance T (done.length + 1) = done.length + 2 := by
        rw [advance_of_not_last (by omega)]
      rw [hadv]
      have htok : T = (done ++ [opT, numT]) ++ flat rem' ++ op :: bad :: ts := by
        rw [hT]
        simp [flat, List.append_assoc]
      have hlen2 : (done ++ [opT, numT]).length = done.length + 2 := by simp
      have hrec := ih (done ++ [opT, numT])
        (Node.BinOp acc opT.type (Node.Literal numT)) f op bad ts (by simp) hw'
        (by omega) hop hbad
      rw [← htok, hlen2] at hrec
      have hcur2 : min (done.length + 2) (T.length - 1) = done.length + 2 := by
        omega
      rw [hcur2] at hrec
      rw [hrec]

/-- When the remainder of a well-formed chain is followed by an operator
token and then a non-`NUM` token, the `term` loop (or a `factor` call it
makes) matches that operator and fails in `literal` with `ParseError`.
The side condition `op.type = MUL → rem ≠ []` holds at every call site:
a `MUL` operator sitting directly at the loop's entry cursor would already
have been consumed by the preceding `factor` call. -/
theorem termLoop_err :
    ∀ (fuel : Nat) (rem : List (Token × Token)) (done : List Token) (acc : Node)
      (op bad : Token) (ts : List Token),
      1 ≤ done.length →
      (∀ p ∈ rem, isOpType p.1.type ∧ p.2.type = TokenType.NUM) →
      (∀ q ∈ rem.head?, isMulPair q = false) →
      rem.length < fuel →
      isOpType op.type →
      (op.type = TokenType.MUL → rem ≠ []) →
      bad.type ≠ TokenType.NUM →
      termLoop (done ++ flat rem ++ op :: bad :: ts) fuel acc
          (min done.length ((done ++ flat rem ++ op :: bad :: ts).length - 1)) =
        .error (.ParseError "Wrong syntax") := by
  intro fuel
  induction fuel with
  | zero => intro rem done acc op bad ts _ _ _ hf; omega
  | succ f ih =>
    intro rem done acc op bad ts hd hw hhead hf hop hopmul hbad
    cases rem with
    | nil =>
      have hadd : op.type = TokenType.PLUS ∨ op.type = TokenType.MINUS := by
        rcases hop with h1 | h1 | h1
        · exact Or.inl h1
        · exact Or.inr h1
        · exact absurd rfl (hopmul h1)
      have hL : (done ++ flat [] ++ op :: bad :: ts).length =
          done.length + 2 + ts.length := by
        simp [flat]
        omega
      set T := done ++ flat [] ++ op :: bad :: ts with hT
      have hcur : min done.length (T.length - 1) = done.length := by omega
      have hget0 : T[done.length]? = some op := by
        rw [hT, List.getElem?_append_right (by simp [flat])]
        simp [flat]
      have hget1 : T[done.length + 1]? = some bad := by
        rw [hT, List.getElem?_append_right (by simp [flat])]
        simp [flat]
      have hnotlast0 : ¬(done.length + 1 = T.length) := by omega
      rw [hcur]
      simp only [termLoop]
      have hmt : matchTok T done.length [TokenType.PLUS, TokenType.MINUS] =
          .ok (true, done.length + 1) := by
        rcases hadd with hP | hM
        · rw [matchTok_cons_true
            (show expected T done.length TokenType.PLUS = .ok true by
              rw [expected_of_peek hnotlast0 hget0, hP]; rfl),
            advance_of_not_last hnotlast0]
        · rw [matchTok_cons_false
            (show expected T done.length TokenType.PLUS = .ok false by
              rw [expected_of_peek hnotlast0 hget0, hM]; rfl),
            matchTok_cons_true
            (show expected T done.length TokenType.MINUS = .ok true by
              rw [expected_of_peek hnotlast0 hget0, hM]; rfl),
            advance_of_not_last hnotlast0]
      simp only [hmt, previous_succ, pyGet_some hget0, factor,
        literal_not_num hget1 hbad]
    | cons p rem' =>
      obtain ⟨o1, n1⟩ := p
      simp only [List.length_cons] at hf
      have hw1 := hw (o1, n1) (List.mem_cons_self _ _)
      have hw' : ∀ q ∈ rem', isOpType q.1.type ∧ q.2.type = TokenType.NUM :=
        fun q hq => hw q (List.mem_cons_of_mem _ hq)
      have hMulNe : o1.type ≠ TokenType.MUL :=
        isMulPair_false_type (hhead (o1, n1) (by rw [List.head?_cons]; rfl))
      have hadd : o1.type = TokenType.PLUS ∨ o1.type = TokenType.MINUS := by
        rcases hw1.1 with h1 | h1 | h1
        · exact Or.inl h1
        · exact Or.inr h1
        · exact absurd h1 hMulNe
      have hL : (done ++ flat ((o1, n1) :: rem') ++ op :: bad :: ts).length =
          done.length + 2 + 2 * rem'.length + 2 + ts.length := by
        simp only [List.length_append, flat_length, List.length_cons]
        omega
      set T := done ++ flat ((o1, n1) :: rem') ++ op :: bad :: ts with hT
      have hcur : min done.length (T.length - 1) = done.length := by omega
      have hget0 : T[done.length]? = some o1 := by
        rw [hT, List.getElem?_append_left
            (by simp only [List.length_append, flat_length, List.length_cons]; omega),
          List.getElem?_append_right (Nat.le_refl _)]
        simp [flat]
      have hget1 : T[done.length + 1]? = some n1 := by
        rw [hT, List.getElem?_append_left
            (by simp only [List.length_append, flat_length, List.length_cons]; omega),
          List.getElem?_append_right (by omega : done.length ≤ done.length + 1)]
        simp [flat]
      have hnotlast0 : ¬(done.length + 1 = T.length) := by omega
      rw [hcur]
      simp only [termLoop]
      have hmt : matchTok T done.length [TokenType.PLUS, TokenType.MINUS] =
          .ok (true, done.length + 1) := by
        rcases hadd with hP | hM
        · rw [matchTok_cons_true
            (show expected T done.length TokenType.PLUS = .ok true by
              rw [expected_of_peek hnotlast0 hget0, hP]; rfl),
            advance_of_not_last hnotlast0]
        · rw [matchTok_cons_false
            (show expected T done.length TokenType.PLUS = .ok false by
              rw [expected_of_peek hnotlast0 hget0, hM]; rfl),
            matchTok_cons_true
            (show expected T done.length TokenType.MINUS = .ok true by
              rw [expected_of_peek hnotlast0 hget0, hM]; rfl),
            advance_of_not_last hnotlast0]
      simp only [hmt, previous_succ, pyGet_some hget0]
      have hadv : advance T (done.length + 1) = done.length + 2 := by
        rw [advance_of_not_last (by omega)]
      have htok : T = (done ++ [o1, n1]) ++ flat rem' ++ op :: bad :: ts := by
        rw [hT]
        simp [flat, List.append_assoc]
      have hlen2 : (done ++ [o1, n1]).length = done.length + 2 := by simp
      by_cases hA : List.dropWhile isMulPair rem' = [] ∧ op.type = TokenType.MUL
      · -- the last factor's loop runs into the trailing `MUL` and fails
        obtain ⟨hdw, hopM⟩ := hA
        have hallM : ∀ q ∈ rem', q.1.type = TokenType.MUL ∧
            q.2.type = TokenType.NUM := by
          intro q hq
          exact ⟨isMulPair_type (List.dropWhile_eq_nil_iff.mp hdw q hq), (hw' q hq).2⟩
        have herr := factorLoop_err rem' (done ++ [o1, n1])
          (Node.Literal n1) (T.length + 1) op bad ts (by simp) hallM (by omega)
          hopM hbad
        rw [← htok, hlen2] at herr
        have hcur2 : min (done.length + 2) (T.length - 1) = done.length + 2 := by
          omega
        rw [hcur2] at herr
        have hfac : factor T (done.length + 1) = .error (.ParseError "Wrong syntax") := by
          simp only [factor, literal_num hget1 hw1.2, hadv]
          exact herr
        simp only [hfac]
      · -- the factor call succeeds; the term loop recurses towards the error
        have hb' : List.dropWhile isMulPair rem' = [] →
            ∀ b ∈ (op :: bad :: ts).head?, b.type ≠ TokenType.MUL := by
          intro hdw b hbmem
          rw [List.head?_cons] at hbmem
          cases hbmem
          intro hbM
          exact hA ⟨hdw, hbM⟩
        have hfl := factorLoop_flat_tail rem' (done ++ [o1, n1])
          (Node.Literal n1) (T.length + 1) (op :: bad :: ts) (by simp) hw'
          (by omega) hb'
        rw [← htok, hlen2] at hfl
        have hcur2 : min (done.length + 2) (T.length - 1) = done.length + 2 := by
          omega
        rw [hcur2] at hfl
        have hfac : factor T (done.length + 1) =
            .ok (mulFoldN (Node.Literal n1) (List.takeWhile isMulPair rem'),
              min (done.length + 2 + 2 * (List.takeWhile isMulPair rem').length)
                (T.length - 1)) := by
          simp only [factor, literal_num hget1 hw1.2, hadv]
          exact hfl
        simp only [hfac]
        have hdone3 : ((done ++ [o1, n1]) ++
            flat (List.takeWhile isMulPair rem')).length =
            done.length + 2 + 2 * (List.takeWhile isMulPair rem').length := by
          simp [flat_length]
          omega
        have htok3 : T = ((done ++ [o1, n1]) ++
            flat (List.takeWhile isMulPair rem')) ++
            flat (List.dropWhile isMulPair rem') ++ op :: bad :: ts := by
          rw [htok]
          conv_lhs => rw [show rem' =
            List.takeWhile isMulPair rem' ++ List.dropWhile isMulPair rem' from
            (List.takeWhile_append_dropWhile isMulPair rem').symm]
          rw [flat_append]
          simp [List.append_assoc]
        have hw3 : ∀ q ∈ List.dropWhile isMulPair rem',
            isOpType q.1.type ∧ q.2.type = TokenType.NUM :=
          fun q hq => hw' q ((List.dropWhile_sublist isMulPair).subset hq)
        have hf3 : (List.dropWhile isMulPair rem').length < f := by
          have := (@List.dropWhile_sublist _ rem' isMulPair).length_le
          omega
        have hopmul3 : op.type = TokenType.MUL →
            List.dropWhile isMulPair rem' ≠ [] := by
          intro hopM hdw
          exact hA ⟨hdw, hopM⟩
        have hIH := ih (List.dropWhile isMulPair rem')
          ((done ++ [o1, n1]) ++ flat (List.takeWhile isMulPair rem'))
          (Node.BinOp acc o1.type
            (mulFoldN (Node.Literal n1) (List.takeWhile isMulPair rem')))
          op bad ts
          (by simp only [List.length_append, List.length_cons, List.length_nil]; omega)
          hw3 (dropWhile_head_false isMulPair rem') hf3 hop hopmul3 hbad
        rw [← htok3, hdone3] at hIH
        rw [hIH]

/-- `Parser.parse` on a well-formed chain produces exactly the tree the
grammar assigns to it (`refTerm`): multiplication binds tighter, both
levels group from the left. -/
theorem parse_chain (t0 : Token) (rest : List (Token × Token))
    (h : wfChain t0 rest) : parse (t0 :: flat rest) = .ok (refTerm t0 rest) := by
  obtain ⟨h0, hw⟩ := h
  set T := t0 :: flat rest with hT
  have hL : T.length = 1 + 2 * rest.length := by
    rw [hT]; simp only [List.length_cons, flat_length]; omega
  have hget0 : T[0]? = some t0 := by rw [hT]; exact List.getElem?_cons_zero
  have hadv0 : advance T 0 = min 1 (T.length - 1) := by
    by_cases hemp : rest = []
    · subst hemp
      simp only [List.length_nil, Nat.mul_zero, Nat.add_zero] at hL
      rw [advance_of_last (by omega)]
      omega
    · have hlen1 : 1 ≤ rest.length := by
        cases rest with
        | nil => exact absurd rfl hemp
        | cons a b => simp
      rw [advance_of_not_last (by omega)]
      omega
  have htok : T = [t0] ++ flat rest := by rw [hT]; rfl
  have hfl := factorLoop_flat rest [t0] (Node.Literal t0) (T.length + 1)
    (by simp) hw (by omega)
  rw [← htok] at hfl
  simp only [List.length_singleton] at hfl
  have hfac : factor T 0 =
      .ok (mulFoldN (Node.Literal t0) (List.takeWhile isMulPair rest),
        min (1 + 2 * (List.takeWhile isMulPair rest).length) (T.length - 1)) := by
    simp only [factor, literal_num hget0 h0, hadv0]
    rw [hfl]
  have hdone3 : ([t0] ++ flat (List.takeWhile isMulPair rest)).length =
      1 + 2 * (List.takeWhile isMulPair rest).length := by
    simp only [List.length_append, List.length_singleton, flat_length]
    try omega
  have htok3 : T = ([t0] ++ flat (List.takeWhile isMulPair rest)) ++
      flat (List.dropWhile isMulPair rest) := by
    rw [htok]
    conv_lhs => rw [show rest =
      List.takeWhile isMulPair rest ++ List.dropWhile isMulPair rest from
      (List.takeWhile_append_dropWhile isMulPair rest).symm]
    rw [flat_append]
    try simp [List.append_assoc]
  have hw3 : ∀ q ∈ List.dropWhile isMulPair rest,
      isOpType q.1.type ∧ q.2.type = TokenType.NUM :=
    fun q hq => hw q ((List.dropWhile_sublist isMulPair).subset hq)
  have hf3 : (List.dropWhile isMulPair rest).length < T.length + 1 := by
    have := (@List.dropWhile_sublist _ rest isMulPair).length_le
    omega
  have hterm := termLoop_flat (T.length + 1) (List.dropWhile isMulPair rest)
    ([t0] ++ flat (List.takeWhile isMulPair rest))
    (mulFoldN (Node.Literal t0) (List.takeWhile isMulPair rest))
    (by simp only [List.length_append, List.length_singleton]; omega)
    hw3 (dropWhile_head_false isMulPair rest) hf3
  rw [← htok3, hdone3] at hterm
  simp only [parse, term, hfac]
  rw [hterm]
  have hsplitfold : rest.foldl refStep (none, Node.Literal t0) =
      (List.dropWhile isMulPair rest).foldl refStep (none,
        mulFoldN (Node.Literal t0) (List.takeWhile isMulPair rest)) := by
    conv_lhs => rw [show rest =
      List.takeWhile isMulPair rest ++ List.dropWhile isMulPair rest from
      (List.takeWhile_append_dropWhile isMulPair rest).symm]
    rw [List.foldl_append,
      foldl_refStep_mul (List.takeWhile isMulPair rest) _ _
        (takeWhile_all isMulPair rest)]
  simp only [refTerm, hsplitfold, Except.map]

/-! ## Evaluation of the reference tree -/

theorem evaluate_applyCtx (ctx : Option (Node × TokenType)) (fac : Node)
    (s prod : Int) (pend : TokenType)
    (hf : evaluate fac = .ok prod)
    (hinv : (ctx = none ∧ s = 0 ∧ pend = TokenType.PLUS) ∨
      (∃ n, ctx = some (n, pend) ∧ evaluate n = .ok s ∧
        (pend = TokenType.PLUS ∨ pend = TokenType.MINUS))) :
    evaluate (applyCtx ctx fac) = .ok (addApply pend s prod) := by
  rcases hinv with ⟨hc, hs, hp⟩ | ⟨n, hc, hn, hp⟩
  · subst hc; subst hs; subst hp
    rw [show applyCtx none fac = fac from rfl, hf]
    congr 1
    simp [addApply]
  · subst hc
    rw [show applyCtx (some (n, pend)) fac = Node.BinOp n pend fac from rfl]
    simp only [evaluate]
    rw [hn, hf]
    rcases hp with hp | hp <;> subst hp <;> simp [addApply]

/-- The invariant connecting the tree-level fold (`refStep`) with the
value-level fold (`evalPrecStep`): the current factor evaluates to the
current product, and the pending context evaluates to the sum so far. -/
theorem refStep_fold_inv :
    ∀ (l : List (Token × Token)) (ctx : Option (Node × TokenType)) (fac : Node)
      (s prod : Int) (pend : TokenType),
      (∀ p ∈ l, isOpType p.1.type ∧ p.2.type = TokenType.NUM ∧ digitLexeme p.2) →
      evaluate fac = .ok prod →
      ((ctx = none ∧ s = 0 ∧ pend = TokenType.PLUS) ∨
        (∃ n, ctx = some (n, pend) ∧ evaluate n = .ok s ∧
          (pend = TokenType.PLUS ∨ pend = TokenType.MINUS))) →
      evaluate (applyCtx (l.foldl refStep (ctx, fac)).1
          (l.foldl refStep (ctx, fac)).2) =
        .ok (addApply
          (((l.map (fun p => (p.1.type, tokVal p.2))).foldl evalPrecStep
            (s, pend, prod)).2.1)
          (((l.map (fun p => (p.1.type, tokVal p.2))).foldl evalPrecStep
            (s, pend, prod)).1)
          (((l.map (fun p => (p.1.type, tokVal p.2))).foldl evalPrecStep
            (s, pend, prod)).2.2)) := by
  intro l
  induction l with
  | nil =>
    intro ctx fac s prod pend _ hf hinv
    exact evaluate_applyCtx ctx fac s prod pend hf hinv
  | cons p l' ih =>
    intro ctx fac s prod pend hall hf hinv
    obtain ⟨o, t⟩ := p
    have hw1 := hall (o, t) (List.mem_cons_self _ _)
    have hw' : ∀ q ∈ l', isOpType q.1.type ∧ q.2.type = TokenType.NUM ∧
        digitLexeme q.2 := fun q hq => hall q (List.mem_cons_of_mem _ hq)
    have ht : evaluate (Node.Literal t) = .ok (tokVal t) := by
      show pyInt t.lexeme = _
      exact pyInt_ok hw1.2.2.1 hw1.2.2.2
    simp only [List.map_cons, List.foldl_cons]
    by_cases hMul : o.type = TokenType.MUL
    · have hstep : refStep (ctx, fac) (o, t) =
          (ctx, Node.BinOp fac TokenType.MUL (Node.Literal t)) := by
        simp only [refStep]
        rw [if_pos hMul]
      have hvstep : evalPrecStep (s, pend, prod) (o.type, tokVal t) =
          (s, pend, prod * tokVal t) := by
        simp only [evalPrecStep]
        rw [if_pos hMul]
      rw [hstep, hvstep]
      refine ih ctx _ s (prod * tokVal t) pend hw' ?_ hinv
      simp only [evaluate]
      rw [hf, show pyInt t.lexeme = Except.ok (tokVal t) from ht]
    · have hops : o.type = TokenType.PLUS ∨ o.type = TokenType.MINUS := by
        rcases hw1.1 with h1 | h1 | h1
        · exact Or.inl h1
        · exact Or.inr h1
        · exact absurd h1 hMul
      have hstep : refStep (ctx, fac) (o, t) =
          (some (applyCtx ctx fac, o.type), Node.Literal t) := by
        simp only [refStep]
        rw [if_neg hMul]
      have hvstep : evalPrecStep (s, pend, prod) (o.type, tokVal t) =
          (addApply pend s prod, o.type, tokVal t) := by
        simp only [evalPrecStep]
        rw [if_neg hMul]
      rw [hstep, hvstep]
      apply ih (some (applyCtx ctx fac, o.type)) (Node.Literal t)
        (addApply pend s prod) (tokVal t) o.type hw' ht
      right
      exact ⟨applyCtx ctx fac, rfl,
        evaluate_applyCtx ctx fac s prod pend hf hinv, hops⟩

/-- The tree the parser builds on a well-formed digit chain evaluates to
exactly the precedence semantics of the chain's values. -/
theorem evaluate_refTerm (t0 : Token) (rest : List (Token × Token))
    (h : wfChainD t0 rest) :
    evaluate (refTerm t0 rest) =
      .ok (evalPrec (tokVal t0) (rest.map (fun p => (p.1.type, tokVal p.2)))) := by
  obtain ⟨⟨h0, hw⟩, hd0, hdr⟩ := h
  have hall : ∀ p ∈ rest, isOpType p.1.type ∧ p.2.type = TokenType.NUM ∧
      digitLexeme p.2 := fun p hp => ⟨(hw p hp).1, (hw p hp).2, hdr p hp⟩
  have ht0 : evaluate (Node.Literal t0) = .ok (tokVal t0) := by
    show pyInt t0.lexeme = _
    exact pyInt_ok hd0.1 hd0.2
  have hmain := refStep_fold_inv rest none (Node.Literal t0) 0 (tokVal t0)
    TokenType.PLUS hall ht0 (Or.inl ⟨rfl, rfl, rfl⟩)
  simpa [refTerm, evalPrec] using hmain

/-! ## Claim theorems: parser and pipeline -/

/-- Claim C1: multiplication binds tighter than addition and subtraction.
`evaluate("2 + 3 * 4") = 14` and `evaluate("2 * 3 + 4") = 10` through the
full pipeline, and in general parsing-and-evaluating any well-formed chain
of digit literals joined by `+`, `-`, `*` yields exactly the value of the
precedence semantics `evalPrec`, in which each additive operand is the
full product of its maximal `MUL`-group. -/
theorem precedence_mul_binds_tighter :
    eval "2 + 3 * 4" = .ok 14 ∧ eval "2 * 3 + 4" = .ok 10 ∧
    ∀ (t0 : Token) (rest : List (Token × Token)), wfChainD t0 rest →
      (parse (t0 :: flat rest)).bind evaluate =
        .ok (evalPrec (tokVal t0) (rest.map (fun p => (p.1.type, tokVal p.2)))) := by
  refine ⟨rfl, rfl, ?_⟩
  intro t0 rest h
  rw [parse_chain t0 rest h.1]
  show evaluate (refTerm t0 rest) = _
  exact evaluate_refTerm t0 rest h

/-- Witness for C1 at the chain `2 + 3 * 4` (token level). -/
theorem precedence_mul_binds_tighter_witness :
    (parse (⟨TokenType.NUM, "2"⟩ :: flat
        [(⟨TokenType.PLUS, "+"⟩, ⟨TokenType.NUM, "3"⟩),
         (⟨TokenType.MUL, "*"⟩, ⟨TokenType.NUM, "4"⟩)])).bind evaluate =
      .ok (evalPrec 2 [(TokenType.PLUS, 3), (TokenType.MUL, 4)]) ∧
    evalPrec 2 [(TokenType.PLUS, 3), (TokenType.MUL, 4)] = 14 :=
  ⟨precedence_mul_binds_tighter.2.2 ⟨TokenType.NUM, "2"⟩
      [(⟨TokenType.PLUS, "+"⟩, ⟨TokenType.NUM, "3"⟩),
       (⟨TokenType.MUL, "*"⟩, ⟨TokenType.NUM, "4"⟩)] (by decide),
   rfl⟩

/-- Claim C2: same-precedence chains group from the left.
`evaluate("10 - 2 - 3") = 5` and `evaluate("2 * 3 * 4") = 24` through the
full pipeline, and in general the parser turns any purely
additive/subtractive chain, and any purely multiplicative chain, into the
left-nested fold of `BinOp`. -/
theorem left_assoc_chains :
    eval "10 - 2 - 3" = .ok 5 ∧ eval "2 * 3 * 4" = .ok 24 ∧
    (∀ (t0 : Token) (rest : List (Token × Token)), t0.type = TokenType.NUM →
      (∀ p ∈ rest, (p.1.type = TokenType.PLUS ∨ p.1.type = TokenType.MINUS) ∧
        p.2.type = TokenType.NUM) →
      parse (t0 :: flat rest) = .ok (rest.foldl
        (fun a p => Node.BinOp a p.1.type (Node.Literal p.2))
        (Node.Literal t0))) ∧
    (∀ (t0 : Token) (rest : List (Token × Token)), t0.type = TokenType.NUM →
      (∀ p ∈ rest, p.1.type = TokenType.MUL ∧ p.2.type = TokenType.NUM) →
      parse (t0 :: flat rest) = .ok (rest.foldl
        (fun a p => Node.BinOp a p.1.type (Node.Literal p.2))
        (Node.Literal t0))) := by
  refine ⟨rfl, rfl, ?_, ?_⟩
  · intro t0 rest h0 hw
    have hwf : wfChain t0 rest := ⟨h0, fun p hp =>
      ⟨by rcases (hw p hp).1 with h1 | h1
          · exact Or.inl h1
          · exact Or.inr (Or.inl h1),
       (hw p hp).2⟩⟩
    rw [parse_chain t0 rest hwf]
    congr 1
    have hmf : ∀ p ∈ rest, isMulPair p = false := by
      intro p hp
      rcases (hw p hp).1 with h1 | h1 <;> simp [isMulPair, h1]
    simp only [refTerm]
    have hfd := foldl_refStep_additive rest none (Node.Literal t0) hmf
    simpa [applyCtx] using hfd
  · intro t0 rest h0 hw
    have hwf : wfChain t0 rest := ⟨h0, fun p hp =>
      ⟨Or.inr (Or.inr (hw p hp).1), (hw p hp).2⟩⟩
    rw [parse_chain t0 rest hwf]
    congr 1
    have hmt : ∀ p ∈ rest, isMulPair p = true := by
      intro p hp
      simp [isMulPair, (hw p hp).1]
    simp only [refTerm]
    rw [foldl_refStep_mul rest none (Node.Literal t0) hmt]
    rfl

/-- Witness for C2 at the chains `10 - 2 - 3` and `2 * 3 * 4`. -/
theorem left_assoc_chains_witness :
    parse (⟨TokenType.NUM, "10"⟩ :: flat
        [(⟨TokenType.MINUS, "-"⟩, ⟨TokenType.NUM, "2"⟩),
         (⟨TokenType.MINUS, "-"⟩, ⟨TokenType.NUM, "3"⟩)]) =
      .ok (Node.BinOp
        (Node.BinOp (Node.Literal ⟨TokenType.NUM, "10"⟩) TokenType.MINUS
          (Node.Literal ⟨TokenType.NUM, "2"⟩))
        TokenType.MINUS (Node.Literal ⟨TokenType.NUM, "3"⟩)) ∧
    parse (⟨TokenType.NUM, "2"⟩ :: flat
        [(⟨TokenType.MUL, "*"⟩, ⟨TokenType.NUM, "3"⟩),
         (⟨TokenType.MUL, "*"⟩, ⟨TokenType.NUM, "4"⟩)]) =
      .ok (Node.BinOp
        (Node.BinOp (Node.Literal ⟨TokenType.NUM, "2"⟩) TokenType.MUL
          (Node.Literal ⟨TokenType.NUM, "3"⟩))
        TokenType.MUL (Node.Literal ⟨TokenType.NUM, "4"⟩)) :=
  ⟨left_assoc_chains.2.2.1 ⟨TokenType.NUM, "10"⟩
      [(⟨TokenType.MINUS, "-"⟩, ⟨TokenType.NUM, "2"⟩),
       (⟨TokenType.MINUS, "-"⟩, ⟨TokenType.NUM, "3"⟩)] rfl (by decide),
   left_assoc_chains.2.2.2 ⟨TokenType.NUM, "2"⟩
      [(⟨TokenType.MUL, "*"⟩, ⟨TokenType.NUM, "3"⟩),
       (⟨TokenType.MUL, "*"⟩, ⟨TokenType.NUM, "4"⟩)] rfl (by decide)⟩

/-- Claim C4 (counterexample): a well-formed term followed by a trailing
operator does NOT fail.  Because `Parser.__is_last` makes `__match` blind
to the final token, `parse` on `NUM "2", PLUS` silently ignores the
trailing `PLUS` and succeeds with the literal `2`. -/
theorem trailing_operator_accepted :
    parse [⟨TokenType.NUM, "2"⟩, ⟨TokenType.PLUS, "+"⟩] =
      .ok (Node.Literal ⟨TokenType.NUM, "2"⟩) := rfl

/-- Claim C4 (amended): `Parser.parse` fails with `ParseError` for every
token sequence whose first token is not a `NUM` (in particular the
single-operator sequence `"+"`), and for every sequence formed of a
well-formed operand/operator chain followed by an operator token and then
a non-`NUM` token, with anything after — these are exactly the sequences
in which the parser matches an operator that is not followed by a factor.
A trailing operator in final position is never matched and is silently
ignored. -/
theorem operator_without_factor :
    (∀ (t : Token) (ts : List Token), t.type ≠ TokenType.NUM →
      parse (t :: ts) = .error (.ParseError "Wrong syntax")) ∧
    (∀ (t0 : Token) (rest : List (Token × Token)) (op bad : Token)
      (ts : List Token), wfChain t0 rest → isOpType op.type →
      bad.type ≠ TokenType.NUM →
      parse ((t0 :: flat rest) ++ op :: bad :: ts) =
        .error (.ParseError "Wrong syntax")) := by
  constructor
  · intro t ts ht
    have hg : (t :: ts)[0]? = some t := List.getElem?_cons_zero
    simp only [parse, term, factor, literal_not_num hg ht, Except.map]
  · intro t0 rest op bad ts hwf hop hbad
    obtain ⟨h0, hw⟩ := hwf
    set T := (t0 :: flat rest) ++ op :: bad :: ts with hT
    have hL : T.length = 1 + 2 * rest.length + 2 + ts.length := by
      rw [hT]
      simp only [List.length_append, List.length_cons, flat_length]
      omega
    have hget0 : T[0]? = some t0 := by
      rw [hT, List.cons_append]
      exact List.getElem?_cons_zero
    have hadv0 : advance T 0 = 1 := by
      rw [advance_of_not_last (by omega)]
    have htok : T = [t0] ++ flat rest ++ op :: bad :: ts := by
      rw [hT]
      simp
    by_cases hA : List.dropWhile isMulPair rest = [] ∧ op.type = TokenType.MUL
    · -- an all-`MUL` chain followed by `MUL bad`: the first factor fails
      obtain ⟨hdw, hopM⟩ := hA
      have hallM : ∀ q ∈ rest, q.1.type = TokenType.MUL ∧
          q.2.type = TokenType.NUM := by
        intro q hq
        exact ⟨isMulPair_type (List.dropWhile_eq_nil_iff.mp hdw q hq), (hw q hq).2⟩
      have herr := factorLoop_err rest [t0] (Node.Literal t0) (T.length + 1)
        op bad ts (by simp) hallM (by omega) hopM hbad
      rw [← htok] at herr
      simp only [List.length_singleton] at herr
      rw [show min 1 (T.length - 1) = 1 by omega] at herr
      have hfac : factor T 0 = .error (.ParseError "Wrong syntax") := by
        simp only [factor, literal_num hget0 h0, hadv0]
        exact herr
      simp only [parse, term, hfac, Except.map]
    · -- otherwise the error surfaces through the term loop
      have hb' : List.dropWhile isMulPair rest = [] →
          ∀ b ∈ (op :: bad :: ts).head?, b.type ≠ TokenType.MUL := by
        intro hdw b hbmem
        rw [List.head?_cons] at hbmem
        cases hbmem
        intro hbM
        exact hA ⟨hdw, hbM⟩
      have hfl := factorLoop_flat_tail rest [t0] (Node.Literal t0)
        (T.length + 1) (op :: bad :: ts) (by simp) hw (by omega) hb'
      rw [← htok] at hfl
      simp only [List.length_singleton] at hfl
      rw [show min 1 (T.length - 1) = 1 by omega] at hfl
      have hfac : factor T 0 =
          .ok (mulFoldN (Node.Literal t0) (List.takeWhile isMulPair rest),
            min (1 + 2 * (List.takeWhile isMulPair rest).length)
              (T.length - 1)) := by
        simp only [factor, literal_num hget0 h0, hadv0]
        exact hfl
      have hdone3 : ([t0] ++ flat (List.takeWhile isMulPair rest)).length =
          1 + 2 * (List.takeWhile isMulPair rest).length := by
        simp only [List.length_append, List.length_singleton, flat_length]
        try omega
      have htok3 : T = ([t0] ++ flat (List.takeWhile isMulPair rest)) ++
          flat (List.dropWhile isMulPair rest) ++ op :: bad :: ts := by
        rw [htok]
        conv_lhs => rw [show rest =
          List.takeWhile isMulPair rest ++ List.dropWhile isMulPair rest from
          (List.takeWhile_append_dropWhile isMulPair rest).symm]
        rw [flat_append]
        simp [List.append_assoc]
      have hw3 : ∀ q ∈ List.dropWhile isMulPair rest,
          isOpType q.1.type ∧ q.2.type = TokenType.NUM :=
        fun q hq => hw q ((List.dropWhile_sublist isMulPair).subset hq)
      have hf3 : (List.dropWhile isMulPair rest).length < T.length + 1 := by
        have := (@List.dropWhile_sublist _ rest isMulPair).length_le
        omega
      have hopmul : op.type = TokenType.MUL →
          List.dropWhile isMulPair rest ≠ [] := by
        intro hopM hdw
        exact hA ⟨hdw, hopM⟩
      have hterm := termLoop_err (T.length + 1)
        (List.dropWhile isMulPair rest)
        ([t0] ++ flat (List.takeWhile isMulPair rest))
        (mulFoldN (Node.Literal t0) (List.takeWhile isMulPair rest))
        op bad ts
        (by simp only [List.length_append, List.length_singleton]; omega)
        hw3 (dropWhile_head_false isMulPair rest) hf3 hop hopmul hbad
      rw [← htok3, hdone3] at hterm
      simp only [parse, term, hfac]
      rw [hterm]
      rfl

/-- Witness for C4's amended theorem: the operator-headed sequence
`+ +` and the chain `1 + 2 * - 3`, whose `MUL` is matched but followed by
`MINUS`, both fail with `ParseError`. -/
theorem operator_without_factor_witness :
    parse [⟨TokenType.PLUS, "+"⟩, ⟨TokenType.PLUS, "+"⟩] =
      .error (.ParseError "Wrong syntax") ∧
    parse [⟨TokenType.NUM, "1"⟩, ⟨TokenType.PLUS, "+"⟩, ⟨TokenType.NUM, "2"⟩,
      ⟨TokenType.MUL, "*"⟩, ⟨TokenType.MINUS, "-"⟩, ⟨TokenType.NUM, "3"⟩] =
      .error (.ParseError "Wrong syntax") :=
  ⟨operator_without_factor.1 ⟨TokenType.PLUS, "+"⟩ [⟨TokenType.PLUS, "+"⟩]
      (by decide),
   operator_without_factor.2 ⟨TokenType.NUM, "1"⟩
      [(⟨TokenType.PLUS, "+"⟩, ⟨TokenType.NUM, "2"⟩)] ⟨TokenType.MUL, "*"⟩
      ⟨TokenType.MINUS, "-"⟩ [⟨TokenType.NUM, "3"⟩]
      (by decide) (by decide) (by decide)⟩

end SimpleArithmetic
